import Mathlib

/-!
# Reference-counted expression graph of `AST.cc`

A shallow embedding of the constructors, the counter operations and the
cascading destructors of `src/AST.cc`, followed by theorems about them.

Modelling conventions.

* A pointer `ExprNode *` is a natural number, the address of a cell of the
  heap.  `new` takes the next unused address (`Heap.size`).
* The heap is a total map from addresses to cells.  Theorems that speak of
  "existing" nodes assume their addresses are below `Heap.size`.
* `delete p` runs the destructor selected by the dynamic type of `p` and then
  gives the storage back.  What a later access to returned storage yields is
  not determined by the source (it is undefined behaviour in C++).
  `deleteExpr` keeps the last contents of the cell, which matters only for
  runs that test or delete a node after its `delete` has completed
  (`Heap.staleTests` counts such tests).  The theorems about correct releases
  concern runs without such an access.  The theorems about the defect in
  `~ComparisonNode` stop at the first such access and hold for every value
  the returned storage may contain (`overwriteFreed`).
* The destructors are mutually recursive through virtual dispatch.  The
  recursion is bounded by `fuel`, the nesting depth of `delete` that is still
  allowed; `none` means the bound was hit.
* The code is modelled with `FREE_AST_VIA_DESTRUCTORS` switched on; without it
  `zeroCounter`, `deleteAllSubtrees` and the cascading destructors do not
  exist.
* `alloc_trace` (by default `/dev/null`) is not modelled.  The `trace` field
  records, in chronological order, the counter operations, the
  `"Negative counter"` lines written to `std::cerr`, and the completed
  `delete`s.
-/

namespace AST

/-! ## Definitions: the embedding of `AST.cc` and the vocabulary of the theorems -/

/-- Variant part of a node: the data members of the five subclasses of
`ExprNode` (`v`; `n`; `o`, `left`, `right`; `o`, `subexps`; `n`, `argList`). -/
inductive Payload where
  | IntLiteral (v : Int)
  | VarUse (n : String)
  | Comparison (o : String) (left right : Nat)
  | Arithmetic (o : String) (subexps : List Nat)
  | Call (n : String) (argList : List Nat)
  deriving DecidableEq, Repr

/-- Child pointers held by a node, in the order its destructor visits them. -/
def Payload.children : Payload → List Nat
  | .IntLiteral _ => []
  | .VarUse _ => []
  | .Comparison _ left right => [left, right]
  | .Arithmetic _ subexps => subexps
  | .Call _ argList => argList

/-- Observable and bookkeeping events, recorded in the order they happen. -/
inductive Event where
  /-- A call of `increaseCounter` on the node. -/
  | increase (a : Nat)
  /-- A call of `decreaseCounter` on the node. -/
  | decrease (a : Nat)
  /-- A call of `zeroCounter` on the node. -/
  | zeroTest (a : Nat)
  /-- The line `Negative counter` written to `std::cerr` by `zeroCounter`. -/
  | negative (a : Nat)
  /-- A `delete` of the node has completed: destructor run, storage returned. -/
  | reclaim (a : Nat)
  deriving DecidableEq, Repr

/-- Modelled from the spec: the declaration of the member `counter` is in
`AST.h`, which is not part of the sources; the spec describes it as a signed
integer, so it is an `Int` here.

The heap: per address the `counter` member and the variant data, the next
unused address, and the event trace. -/
structure Heap where
  counter : Nat → Int
  kind : Nat → Payload
  size : Nat
  trace : List Event

/-- Heap with no node allocated and nothing recorded. -/
def Heap.empty : Heap :=
  { counter := fun _ => 0, kind := fun _ => Payload.IntLiteral 0, size := 0, trace := [] }

/-- Append one event to the trace. -/
def Heap.emit (s : Heap) (e : Event) : Heap :=
  { s with trace := s.trace ++ [e] }

/-- Number of completed `delete`s of node `a` so far. -/
def Heap.reclaims (s : Heap) (a : Nat) : Nat :=
  s.trace.count (Event.reclaim a)

/-- Number of `Negative counter` lines written so far. -/
def Heap.negatives (s : Heap) : Nat :=
  s.trace.countP fun e => match e with
    | Event.negative _ => true
    | _ => false

/-- Number of `decreaseCounter` calls made on node `a` so far. -/
def Heap.decreases (s : Heap) (a : Nat) : Nat :=
  s.trace.count (Event.decrease a)

/-- Number of `increaseCounter` calls made on node `a` so far. -/
def Heap.increases (s : Heap) (a : Nat) : Nat :=
  s.trace.count (Event.increase a)

/-- `ExprNode::ExprNode()`: `this->counter = 0`. -/
def ExprNode (s : Heap) (this : Nat) : Heap :=
  { s with counter := Function.update s.counter this 0 }

/-- `new`: the node is placed at the next unused address, its data members are
initialised to `k`, and the superclass constructor runs. -/
def alloc (s : Heap) (k : Payload) : Heap :=
  ExprNode { s with kind := Function.update s.kind s.size k, size := s.size + 1 } s.size

/-- `ExprNode::increaseCounter`: `this->counter++`. -/
def increaseCounter (s : Heap) (this : Nat) : Heap :=
  { s with counter := Function.update s.counter this (s.counter this + 1),
           trace := s.trace ++ [Event.increase this] }

/-- `IntLiteralNode::IntLiteralNode(int value)`; returns the new node. -/
def IntLiteralNode (s : Heap) (value : Int) : Nat × Heap :=
  (s.size, alloc s (Payload.IntLiteral value))

/-- `VarUseNode::VarUseNode(string name)`; returns the new node. -/
def VarUseNode (s : Heap) (name : String) : Nat × Heap :=
  (s.size, alloc s (Payload.VarUse name))

/-- `ComparisonNode::ComparisonNode(string op, ExprNode *lhs, ExprNode *rhs)`:
`lhs->increaseCounter(); rhs->increaseCounter();`. -/
def ComparisonNode (s : Heap) (op : String) (lhs rhs : Nat) : Nat × Heap :=
  let s0 := alloc s (Payload.Comparison op lhs rhs)
  let s1 := increaseCounter s0 lhs
  let s2 := increaseCounter s1 rhs
  (s.size, s2)

/-- `incrementCounterList`: one `increaseCounter` per element, head first. -/
def incrementCounterList (s : Heap) : List Nat → Heap
  | [] => s
  | head :: rest => incrementCounterList (increaseCounter s head) rest

/-- `ArithmeticNode::ArithmeticNode(string op, list<ExprNode *> operands)`. -/
def ArithmeticNode (s : Heap) (op : String) (operands : List Nat) : Nat × Heap :=
  (s.size, incrementCounterList (alloc s (Payload.Arithmetic op operands)) operands)

/-- `CallNode::CallNode(string funcName, list<ExprNode *> arguments)`. -/
def CallNode (s : Heap) (funcName : String) (arguments : List Nat) : Nat × Heap :=
  (s.size, incrementCounterList (alloc s (Payload.Call funcName arguments)) arguments)

/-- `ExprNode::decreaseCounter`: `this->counter--`. -/
def decreaseCounter (s : Heap) (this : Nat) : Heap :=
  { s with counter := Function.update s.counter this (s.counter this - 1),
           trace := s.trace ++ [Event.decrease this] }

/-- `ExprNode::zeroCounter`: writes `Negative counter` when the counter is
below zero, then answers whether the counter is zero.  Returns the answer and
the heap (only the trace can differ). -/
def zeroCounter (s : Heap) (this : Nat) : Bool × Heap :=
  let s0 := s.emit (Event.zeroTest this)
  let s1 := if s0.counter this < 0 then s0.emit (Event.negative this) else s0
  if s1.counter this = 0 then (true, s1) else (false, s1)

/-- `deleteAllSubtrees`: for each element, head first: decrement, test, and
`delete` it when the test says zero.  `del` is the `delete` expression. -/
def deleteAllSubtrees (del : Heap → Nat → Option Heap) (s : Heap) : List Nat → Option Heap
  | [] => some s
  | head :: rest =>
    let s1 := decreaseCounter s head
    let t := zeroCounter s1 head
    match (if t.1 = true then del t.2 head else some t.2) with
    | none => none
    | some s2 => deleteAllSubtrees del s2 rest

/-- Body of `ComparisonNode::~ComparisonNode`: both decrements first, then the
test (and possibly `delete`) of `left`, then the test of `right`. -/
def ComparisonNode.destructor (del : Heap → Nat → Option Heap) (s : Heap)
    (left right : Nat) : Option Heap :=
  let s1 := decreaseCounter s left
  let s2 := decreaseCounter s1 right
  let t := zeroCounter s2 left
  match (if t.1 = true then del t.2 left else some t.2) with
  | none => none
  | some s3 =>
    let u := zeroCounter s3 right
    if u.1 = true then del u.2 right else some u.2

/-- Body of `ArithmeticNode::~ArithmeticNode`: `deleteAllSubtrees(subexps)`. -/
def ArithmeticNode.destructor (del : Heap → Nat → Option Heap) (s : Heap)
    (subexps : List Nat) : Option Heap :=
  deleteAllSubtrees del s subexps

/-- Body of `CallNode::~CallNode`: `deleteAllSubtrees(argList)`. -/
def CallNode.destructor (del : Heap → Nat → Option Heap) (s : Heap)
    (argList : List Nat) : Option Heap :=
  deleteAllSubtrees del s argList

/-- The expression `delete p`: the destructor of the dynamic type of `p` runs
(those of `IntLiteralNode`, `VarUseNode` and `ExprNode` touch no counter),
then the storage is returned.  `fuel` bounds the nesting depth. -/
def deleteExpr : Nat → Heap → Nat → Option Heap
  | 0, _, _ => none
  | fuel + 1, s, p =>
    match (match s.kind p with
      | Payload.IntLiteral _ => some s
      | Payload.VarUse _ => some s
      | Payload.Comparison _ left right =>
          ComparisonNode.destructor (fun h q => deleteExpr fuel h q) s left right
      | Payload.Arithmetic _ subexps =>
          ArithmeticNode.destructor (fun h q => deleteExpr fuel h q) s subexps
      | Payload.Call _ argList =>
          CallNode.destructor (fun h q => deleteExpr fuel h q) s argList) with
    | none => none
    | some s1 => some (s1.emit (Event.reclaim p))

/-- Edge relation of a heap with variant data `k`: `c` is a child of `a`. -/
def Child (k : Nat → Payload) (a c : Nat) : Prop :=
  c ∈ (k a).children

/-- Node `b` is reachable from `a` (in zero or more edges). -/
def Reach (k : Nat → Payload) (a b : Nat) : Prop :=
  Relation.ReflTransGen (Child k) a b

/-- Acyclicity witnessed by a rank that strictly drops along every edge. -/
def Ranked (k : Nat → Payload) (rank : Nat → Nat) : Prop :=
  ∀ a c, c ∈ (k a).children → rank c < rank a

/-- Number of edges into `a` from the allocated nodes (repeats counted). -/
def inDegree (s : Heap) (a : Nat) : Nat :=
  ((List.range s.size).map fun p => (s.kind p).children.count a).sum

/-- Every child pointer of an allocated node was allocated before the node:
what a heap built by the constructors looks like. -/
def Closed (s : Heap) : Prop :=
  ∀ p, p < s.size → ∀ c ∈ (s.kind p).children, c < p

/-- Every allocated node's counter equals its number of incoming edges. -/
def CountersMatch (s : Heap) : Prop :=
  ∀ a, a < s.size → s.counter a = (inDegree s a : Int)

instance (s : Heap) : Decidable (Closed s) := by
  unfold Closed; infer_instance

instance (s : Heap) : Decidable (CountersMatch s) := by
  unfold CountersMatch; infer_instance

/-- What a run of the destructors can do to a heap: the graph and the
allocation mark stay, counters never grow, the trace only gets longer. -/
def Evolves (s t : Heap) : Prop :=
  t.kind = s.kind ∧ t.size = s.size ∧ (∀ a, t.counter a ≤ s.counter a) ∧
    (∀ a, t.counter a + (t.decreases a : Int) = s.counter a + (s.decreases a : Int)) ∧
    (∀ a, t.increases a = s.increases a)

/-- The fragment `if (c->zeroCounter() == true) delete c;` that the destructors
repeat for each child. -/
def testAndDelete (del : Heap → Nat → Option Heap) (s : Heap) (c : Nat) : Option Heap :=
  if (zeroCounter s c).1 = true then del (zeroCounter s c).2 c else some (zeroCounter s c).2

/-- The body of the destructor that `delete` selects for a node with data `k`. -/
def destructorBody (del : Heap → Nat → Option Heap) (s : Heap) : Payload → Option Heap
  | Payload.IntLiteral _ => some s
  | Payload.VarUse _ => some s
  | Payload.Comparison _ left right => ComparisonNode.destructor del s left right
  | Payload.Arithmetic _ subexps => ArithmeticNode.destructor del s subexps
  | Payload.Call _ argList => CallNode.destructor del s argList

/-- Invariant under which the nested `delete`s stay inside `D`. -/
def FrameInv (k : Nat → Payload) (D : Nat → Prop) (s : Heap) : Prop :=
  s.kind = k ∧ ∀ a c, D a → c ∈ (k a).children → D c ∨ s.counter c ≤ 0

/-- What the frame rule promises about a nested `delete`. -/
def DelFrames (k : Nat → Payload) (D : Nat → Prop) (x : Nat)
    (del : Heap → Nat → Option Heap) : Prop :=
  ∀ s c s', FrameInv k D s → D c → del s c = some s' →
    s'.counter x = s.counter x ∧ s'.reclaims x = s.reclaims x + (if c = x then 1 else 0)

/-- Leaf variants: `IntLiteralNode` and `VarUseNode`. -/
def Payload.isLeaf : Payload → Bool
  | Payload.IntLiteral _ => true
  | Payload.VarUse _ => true
  | _ => false

/-- What a destructor that deletes nothing does to the heap, for a child list
`l`: the counters drop by the multiplicities in `l`, nothing is reclaimed and
nothing is reported. -/
def OnlyDecrements (l : List Nat) (s t : Heap) : Prop :=
  t.kind = s.kind ∧ t.size = s.size ∧
    (∀ a, t.counter a = s.counter a - (l.count a : Int)) ∧
    (∀ a, t.reclaims a = s.reclaims a) ∧ t.negatives = s.negatives ∧
    (∀ a, t.decreases a = s.decreases a + l.count a) ∧
    (∀ a, t.increases a = s.increases a)

/-- Construction of a node followed by its release, seen from the heap `s`
before the construction: the release returns, every node of `s` has its old
counter again, only the new node is reclaimed, each node received as many
decrements as increments (its multiplicity among the children), and nothing
was reported. -/
def RoundTrip (s : Heap) (built : Nat × Heap) (children : List Nat) (fuel : Nat) : Prop :=
  ∃ t, deleteExpr (fuel + 1) built.2 built.1 = some t ∧
    (∀ n, n < s.size → t.counter n = s.counter n) ∧
    (∀ n, n ≠ built.1 → t.reclaims n = s.reclaims n) ∧
    t.reclaims built.1 = s.reclaims built.1 + 1 ∧
    (∀ n, t.increases n = s.increases n + children.count n ∧
      t.decreases n = s.decreases n + children.count n) ∧
    t.negatives = s.negatives

/-- Condition on the comparison nodes below `p`: for every `ComparisonNode`
reachable from `p`, the right child is neither the left child nor reachable
from the left child. -/
def SafeBelow (k : Nat → Payload) (p : Nat) : Prop :=
  ∀ a o l r, Reach k p a → k a = Payload.Comparison o l r → l ≠ r ∧ ¬ Reach k l r

/-- One when the counter of `x` is positive in `s` and at most zero in `t`
(on the way from `s` to `t` the counter reached zero), zero otherwise. -/
def cross (s t : Heap) (x : Nat) : Nat :=
  if 0 < s.counter x ∧ t.counter x ≤ 0 then 1 else 0

/-- One when `e` is a `zeroCounter` call on a node whose `delete` is already
recorded in `seen`, zero otherwise. -/
def staleWeight (seen : List Event) : Event → Nat
  | Event.zeroTest a => if Event.reclaim a ∈ seen then 1 else 0
  | _ => 0

/-- Number of `zeroCounter` calls in `tr` that were made on a node whose
`delete` had already completed; `seen` is the part of the trace before `tr`. -/
def staleTestsFrom : List Event → List Event → Nat
  | _, [] => 0
  | seen, e :: rest => staleWeight seen e + staleTestsFrom (seen ++ [e]) rest

/-- Number of `zeroCounter` calls made so far on an already reclaimed node. -/
def Heap.staleTests (s : Heap) : Nat :=
  staleTestsFrom [] s.trace

/-- Number of edges into `x` whose source (among the nodes below `n`) was
reclaimed between two reclamation counts `R` and `R'`, repeats counted. -/
def edgesReleased (k : Nat → Payload) (n : Nat) (R R' : Nat → Nat) (x : Nat) : Int :=
  ((List.range n).map fun a => ((R' a : Int) - (R a : Int)) * ((k a).children.count x : Int)).sum

/-- A law about `delete` (it holds on acyclic graphs below which the comparison
nodes are safe): a node is reclaimed once for being the
node deleted, and once if its counter went from positive to at most zero. -/
def CrossLaw (k : Nat → Payload) (del : Heap → Nat → Option Heap) : Prop :=
  ∀ s c s', s.kind = k → SafeBelow k c → del s c = some s' →
    ∀ x, s'.reclaims x = s.reclaims x + (if x = c then 1 else 0) + cross s s' x


/-- A law about `delete`: the decrements a node receives are exactly the
edges into it from the nodes that were reclaimed (`N` bounds the nodes). -/
def PaidLaw (k : Nat → Payload) (N : Nat) (del : Heap → Nat → Option Heap) : Prop :=
  ∀ s c s', s.kind = k → (∀ a, Reach k c a → a < N) → del s c = some s' →
    ∀ x, (s'.decreases x : Int) - (s.decreases x : Int) =
      edgesReleased k N s.reclaims s'.reclaims x

/-- Within the set `G`, a node that has been reclaimed has a counter that is
at most zero. -/
def FreedAtZero (G : Nat → Prop) (s : Heap) : Prop :=
  ∀ x, G x → 0 < s.reclaims x → s.counter x ≤ 0

/-- A law about `delete`: when no counter below the deleted node ends up
negative and the reclaimed nodes below it have counter at most zero, the
`delete` makes no zero test on a node that was already reclaimed. -/
def StaleLaw (k : Nat → Payload) (del : Heap → Nat → Option Heap) : Prop :=
  ∀ s c s', s.kind = k → SafeBelow k c → del s c = some s' →
    (∀ x, Reach k c x → 0 ≤ s'.counter x) → FreedAtZero (fun x => Reach k c x) s →
    s'.staleTests = s.staleTests

/-- The source does not determine what the deallocator leaves in storage that
`delete` has returned.  `overwriteFreed s a v` is the heap `s` in which the
counter word of the returned cell `a` reads `v`. -/
def overwriteFreed (s : Heap) (a : Nat) (v : Int) : Heap :=
  { s with counter := Function.update s.counter a v }

/-! ### Concrete heaps built with the constructors -/

/-- Scenario: a single fresh node `x = IntLiteral(5)`; node and heap. -/
def scenarioFreshLeaf : Nat × Heap :=
  IntLiteralNode Heap.empty 5

/-- Scenario C of the spec: `shared = VarUse("v")` (node 0), `IntLiteral(0)`
(node 1), `c1 = Comparison("<", shared, IntLiteral(0))` (node 2) and
`c2 = Arithmetic("+", [shared])` (node 3). -/
def scenarioTwoParents : Heap :=
  let shared := VarUseNode Heap.empty "v"
  let zero := IntLiteralNode shared.2 0
  let c1 := ComparisonNode zero.2 "<" shared.1 zero.1
  let c2 := ArithmeticNode c1.2 "+" [shared.1]
  c2.2

/-- Scenario A of the spec before the comparison is built: `IntLiteral(1)`
(node 0) and `IntLiteral(2)` (node 1). -/
def scenarioTwoLeaves : Heap :=
  (IntLiteralNode (IntLiteralNode Heap.empty 1).2 2).2

/-- Scenario: `x = IntLiteral(5); c = Comparison("<", x, x)`; root and heap
(`x` is node 0, `c` is node 1). -/
def scenarioSameChild : Nat × Heap :=
  let x := IntLiteralNode Heap.empty 5
  ComparisonNode x.2 "<" x.1 x.1

/-- Scenario: `y = IntLiteral(1); a = Arithmetic("+", [y]);
r = Comparison("<", a, a)`; root and heap (`y`, `a`, `r` are nodes 0, 1, 2). -/
def scenarioSharedOperand : Nat × Heap :=
  let y := IntLiteralNode Heap.empty 1
  let a := ArithmeticNode y.2 "+" [y.1]
  ComparisonNode a.2 "<" a.1 a.1

/-- Scenario: `x = VarUse("x")` (node 0), `a = Arithmetic("+", [x, x])`
(node 1), `r = Comparison("<", x, a)` (node 2): `x` is shared, and the right
child of the comparison is not reachable from the left child. -/
def scenarioSafeComparison : Heap :=
  let x := VarUseNode Heap.empty "x"
  let a := ArithmeticNode x.2 "+" [x.1, x.1]
  let r := ComparisonNode a.2 "<" x.1 a.1
  r.2

/-- Scenario D of the spec before the call is built: `IntLiteral(1)` (node 0),
`VarUse("x")` (node 1), `IntLiteral(2)` (node 2). -/
def scenarioCallArguments : Heap :=
  (IntLiteralNode (VarUseNode (IntLiteralNode Heap.empty 1).2 "x").2 2).2

/-! ## Lemmas -/

section Basic

variable (s : Heap) (a b : Nat)

@[simp] theorem emit_counter (e : Event) : (s.emit e).counter = s.counter := rfl

@[simp] theorem emit_kind (e : Event) : (s.emit e).kind = s.kind := rfl

@[simp] theorem emit_size (e : Event) : (s.emit e).size = s.size := rfl

@[simp] theorem emit_trace (e : Event) : (s.emit e).trace = s.trace ++ [e] := rfl

@[simp] theorem increaseCounter_kind : (increaseCounter s a).kind = s.kind := rfl

@[simp] theorem increaseCounter_size : (increaseCounter s a).size = s.size := rfl

@[simp] theorem increaseCounter_trace :
    (increaseCounter s a).trace = s.trace ++ [Event.increase a] := rfl

@[simp] theorem increaseCounter_counter_same :
    (increaseCounter s a).counter a = s.counter a + 1 := by
  simp [increaseCounter]

theorem increaseCounter_counter_other (h : b ≠ a) :
    (increaseCounter s a).counter b = s.counter b := by
  simp [increaseCounter, Function.update_noteq h]

theorem increaseCounter_counter :
    (increaseCounter s a).counter b = s.counter b + (if b = a then 1 else 0) := by
  by_cases h : b = a
  · subst h; simp
  · simp [increaseCounter_counter_other s a b h, h]

@[simp] theorem decreaseCounter_kind : (decreaseCounter s a).kind = s.kind := rfl

@[simp] theorem decreaseCounter_size : (decreaseCounter s a).size = s.size := rfl

@[simp] theorem decreaseCounter_trace :
    (decreaseCounter s a).trace = s.trace ++ [Event.decrease a] := rfl

@[simp] theorem decreaseCounter_counter_same :
    (decreaseCounter s a).counter a = s.counter a - 1 := by
  simp [decreaseCounter]

theorem decreaseCounter_counter_other (h : b ≠ a) :
    (decreaseCounter s a).counter b = s.counter b := by
  simp [decreaseCounter, Function.update_noteq h]

theorem decreaseCounter_counter :
    (decreaseCounter s a).counter b = s.counter b - (if b = a then 1 else 0) := by
  by_cases h : b = a
  · subst h; simp
  · simp [decreaseCounter_counter_other s a b h, h]

theorem zeroCounter_fst : (zeroCounter s a).1 = decide (s.counter a = 0) := by
  unfold zeroCounter
  by_cases h0 : s.counter a = 0
  · simp [h0]
  · by_cases hn : s.counter a < 0 <;> simp [h0, hn]

theorem zeroCounter_snd : (zeroCounter s a).2 =
    if s.counter a < 0 then (s.emit (Event.zeroTest a)).emit (Event.negative a)
    else s.emit (Event.zeroTest a) := by
  unfold zeroCounter
  by_cases hn : s.counter a < 0
  · have h0 : s.counter a ≠ 0 := by omega
    simp [hn, h0]
  · by_cases h0 : s.counter a = 0 <;> simp [hn, h0]

@[simp] theorem zeroCounter_counter : (zeroCounter s a).2.counter = s.counter := by
  rw [zeroCounter_snd]; split <;> rfl

@[simp] theorem zeroCounter_kind : (zeroCounter s a).2.kind = s.kind := by
  rw [zeroCounter_snd]; split <;> rfl

@[simp] theorem zeroCounter_size : (zeroCounter s a).2.size = s.size := by
  rw [zeroCounter_snd]; split <;> rfl

theorem zeroCounter_trace : (zeroCounter s a).2.trace =
    s.trace ++ (Event.zeroTest a :: if s.counter a < 0 then [Event.negative a] else []) := by
  rw [zeroCounter_snd]; split <;> simp

@[simp] theorem emit_reclaims (e : Event) :
    (s.emit e).reclaims b = s.reclaims b + (if e = Event.reclaim b then 1 else 0) := by
  by_cases h : e = Event.reclaim b
  · subst h; simp [Heap.reclaims, Heap.emit, List.count_append]
  · have hne : (e == Event.reclaim b) = false := by
      simpa using h
    simp [Heap.reclaims, Heap.emit, List.count_append, List.count_cons, h, hne]

@[simp] theorem increaseCounter_reclaims : (increaseCounter s a).reclaims b = s.reclaims b := by
  simp [Heap.reclaims, List.count_append]

@[simp] theorem decreaseCounter_reclaims : (decreaseCounter s a).reclaims b = s.reclaims b := by
  simp [Heap.reclaims, List.count_append]

@[simp] theorem zeroCounter_reclaims : (zeroCounter s a).2.reclaims b = s.reclaims b := by
  simp only [Heap.reclaims, zeroCounter_trace]
  split <;> simp [List.count_append]

end Basic

theorem count_singleton_event (e f : Event) :
    [f].count e = if f = e then 1 else 0 := by
  by_cases h : f = e
  · subst h; simp
  · have hne : (f == e) = false := by simpa using h
    simp [List.count_cons, h, hne]

section Counts

variable (s : Heap) (a b : Nat)

@[simp] theorem emit_decreases (e : Event) :
    (s.emit e).decreases b = s.decreases b + (if e = Event.decrease b then 1 else 0) := by
  simp [Heap.decreases, Heap.emit, List.count_append, count_singleton_event]

@[simp] theorem emit_increases (e : Event) :
    (s.emit e).increases b = s.increases b + (if e = Event.increase b then 1 else 0) := by
  simp [Heap.increases, Heap.emit, List.count_append, count_singleton_event]

@[simp] theorem decreaseCounter_decreases :
    (decreaseCounter s a).decreases b = s.decreases b + (if a = b then 1 else 0) := by
  simp [Heap.decreases, List.count_append, count_singleton_event]

@[simp] theorem decreaseCounter_increases :
    (decreaseCounter s a).increases b = s.increases b := by
  simp [Heap.increases, List.count_append, count_singleton_event]

@[simp] theorem increaseCounter_increases :
    (increaseCounter s a).increases b = s.increases b + (if a = b then 1 else 0) := by
  simp [Heap.increases, List.count_append, count_singleton_event]

@[simp] theorem increaseCounter_decreases :
    (increaseCounter s a).decreases b = s.decreases b := by
  simp [Heap.decreases, List.count_append, count_singleton_event]

@[simp] theorem zeroCounter_decreases : (zeroCounter s a).2.decreases b = s.decreases b := by
  simp only [Heap.decreases, zeroCounter_trace]
  split <;> simp [List.count_append, List.count_cons]

@[simp] theorem zeroCounter_increases : (zeroCounter s a).2.increases b = s.increases b := by
  simp only [Heap.increases, zeroCounter_trace]
  split <;> simp [List.count_append, List.count_cons]

end Counts

theorem Evolves.refl (s : Heap) : Evolves s s :=
  ⟨rfl, rfl, fun _ => le_rfl, fun _ => rfl, fun _ => rfl⟩

theorem Evolves.trans {s t u : Heap} (h1 : Evolves s t) (h2 : Evolves t u) : Evolves s u :=
  ⟨h2.1.trans h1.1, h2.2.1.trans h1.2.1, fun a => (h2.2.2.1 a).trans (h1.2.2.1 a),
    fun a => (h2.2.2.2.1 a).trans (h1.2.2.2.1 a),
    fun a => (h2.2.2.2.2 a).trans (h1.2.2.2.2 a)⟩

theorem evolves_decreaseCounter (s : Heap) (a : Nat) : Evolves s (decreaseCounter s a) := by
  refine ⟨rfl, rfl, fun b => ?_, fun b => ?_, fun b => by simp⟩
  · rw [decreaseCounter_counter]; split <;> omega
  · rw [decreaseCounter_counter, decreaseCounter_decreases]
    by_cases h : b = a
    · subst h; simp
    · have h2 : ¬ a = b := fun e => h e.symm
      simp [h, h2]

theorem evolves_zeroCounter (s : Heap) (a : Nat) : Evolves s (zeroCounter s a).2 :=
  ⟨by simp, by simp, fun b => by simp, fun b => by simp, fun b => by simp⟩

theorem evolves_reclaim (s : Heap) (p : Nat) : Evolves s (s.emit (Event.reclaim p)) :=
  ⟨rfl, rfl, fun _ => le_rfl, fun _ => by simp, fun _ => by simp⟩

theorem deleteAllSubtrees_nil (del : Heap → Nat → Option Heap) (s : Heap) :
    deleteAllSubtrees del s [] = some s := rfl

theorem deleteAllSubtrees_cons (del : Heap → Nat → Option Heap) (s : Heap) (h : Nat)
    (t : List Nat) :
    deleteAllSubtrees del s (h :: t) =
      (testAndDelete del (decreaseCounter s h) h).bind fun s2 => deleteAllSubtrees del s2 t := by
  simp only [deleteAllSubtrees, testAndDelete]
  cases (if (zeroCounter (decreaseCounter s h) h).1 = true
    then del (zeroCounter (decreaseCounter s h) h).2 h
    else some (zeroCounter (decreaseCounter s h) h).2) <;> rfl

theorem ComparisonNode.destructor_eq (del : Heap → Nat → Option Heap) (s : Heap) (l r : Nat) :
    ComparisonNode.destructor del s l r =
      (testAndDelete del (decreaseCounter (decreaseCounter s l) r) l).bind fun s3 =>
        testAndDelete del s3 r := by
  simp only [ComparisonNode.destructor, testAndDelete]
  cases (if (zeroCounter (decreaseCounter (decreaseCounter s l) r) l).1 = true
    then del (zeroCounter (decreaseCounter (decreaseCounter s l) r) l).2 l
    else some (zeroCounter (decreaseCounter (decreaseCounter s l) r) l).2) <;> rfl

theorem deleteExpr_zero (s : Heap) (p : Nat) : deleteExpr 0 s p = none := rfl

theorem deleteExpr_succ (fuel : Nat) (s : Heap) (p : Nat) :
    deleteExpr (fuel + 1) s p =
      (destructorBody (deleteExpr fuel) s (s.kind p)).map fun s1 => s1.emit (Event.reclaim p) := by
  rw [deleteExpr]
  cases hk : s.kind p <;> simp only [destructorBody] <;>
    first
    | rfl
    | (split <;> simp_all)

theorem testAndDelete_evolves {del : Heap → Nat → Option Heap}
    (hdel : ∀ s c s', del s c = some s' → Evolves s s') {s s' : Heap} {c : Nat}
    (h : testAndDelete del s c = some s') : Evolves s s' := by
  unfold testAndDelete at h
  split at h
  · exact (evolves_zeroCounter s c).trans (hdel _ _ _ h)
  · cases h; exact evolves_zeroCounter s c

theorem deleteAllSubtrees_evolves {del : Heap → Nat → Option Heap}
    (hdel : ∀ s c s', del s c = some s' → Evolves s s') :
    ∀ (l : List Nat) (s s' : Heap), deleteAllSubtrees del s l = some s' → Evolves s s' := by
  intro l
  induction l with
  | nil => intro s s' h; cases h; exact Evolves.refl s
  | cons c t ih =>
    intro s s' h
    rw [deleteAllSubtrees_cons] at h
    obtain ⟨s2, h2, h3⟩ := Option.bind_eq_some.mp h
    exact ((evolves_decreaseCounter s c).trans (testAndDelete_evolves hdel h2)).trans (ih _ _ h3)

theorem ComparisonNode.destructor_evolves {del : Heap → Nat → Option Heap}
    (hdel : ∀ s c s', del s c = some s' → Evolves s s') {s s' : Heap} {l r : Nat}
    (h : ComparisonNode.destructor del s l r = some s') : Evolves s s' := by
  rw [ComparisonNode.destructor_eq] at h
  obtain ⟨s3, h3, h4⟩ := Option.bind_eq_some.mp h
  exact (((evolves_decreaseCounter s l).trans (evolves_decreaseCounter _ r)).trans
    (testAndDelete_evolves hdel h3)).trans (testAndDelete_evolves hdel h4)

theorem destructorBody_evolves {del : Heap → Nat → Option Heap}
    (hdel : ∀ s c s', del s c = some s' → Evolves s s') {s s' : Heap} {k : Payload}
    (h : destructorBody del s k = some s') : Evolves s s' := by
  cases k with
  | IntLiteral v => cases h; exact Evolves.refl s
  | VarUse n => cases h; exact Evolves.refl s
  | Comparison o l r => exact ComparisonNode.destructor_evolves hdel h
  | Arithmetic o l => exact deleteAllSubtrees_evolves hdel l s s' h
  | Call n l => exact deleteAllSubtrees_evolves hdel l s s' h

/-- A completed `delete` leaves the graph alone, never raises a counter and
only appends to the trace. -/
theorem deleteExpr_evolves :
    ∀ (fuel : Nat) (s : Heap) (p : Nat) (s' : Heap),
      deleteExpr fuel s p = some s' → Evolves s s' := by
  intro fuel
  induction fuel with
  | zero => intro s p s' h; cases h
  | succ n ih =>
    intro s p s' h
    rw [deleteExpr_succ] at h
    obtain ⟨s1, h1, rfl⟩ := Option.map_eq_some'.mp h
    exact (destructorBody_evolves ih h1).trans (evolves_reclaim _ _)

theorem testAndDelete_total {del : Heap → Nat → Option Heap} {k : Nat → Payload}
    {c : Nat} (hdel : ∀ s, s.kind = k → ∃ s', del s c = some s')
    (s : Heap) (hk : s.kind = k) : ∃ s', testAndDelete del s c = some s' := by
  unfold testAndDelete
  split
  · exact hdel _ (by simpa using hk)
  · exact ⟨_, rfl⟩

theorem deleteAllSubtrees_total {del : Heap → Nat → Option Heap} {k : Nat → Payload}
    (hev : ∀ s c s', del s c = some s' → Evolves s s') :
    ∀ (l : List Nat), (∀ c ∈ l, ∀ s, s.kind = k → ∃ s', del s c = some s') →
      ∀ s : Heap, s.kind = k → ∃ s', deleteAllSubtrees del s l = some s' := by
  intro l
  induction l with
  | nil => intro _ s _; exact ⟨s, rfl⟩
  | cons c t ih =>
    intro hdel s hk
    rw [deleteAllSubtrees_cons]
    obtain ⟨s2, h2⟩ := testAndDelete_total (hdel c (List.mem_cons_self c t))
      (decreaseCounter s c) (by simpa using hk)
    have hk2 : s2.kind = k := by
      rw [(testAndDelete_evolves hev h2).1]; simpa using hk
    obtain ⟨s3, h3⟩ := ih (fun d hd => hdel d (List.mem_cons_of_mem c hd)) s2 hk2
    exact ⟨s3, by simp [h2, h3]⟩

theorem ComparisonNode.destructor_total {del : Heap → Nat → Option Heap} {k : Nat → Payload}
    (hev : ∀ s c s', del s c = some s' → Evolves s s') {l r : Nat}
    (hl : ∀ s, s.kind = k → ∃ s', del s l = some s')
    (hr : ∀ s, s.kind = k → ∃ s', del s r = some s')
    (s : Heap) (hk : s.kind = k) : ∃ s', ComparisonNode.destructor del s l r = some s' := by
  rw [ComparisonNode.destructor_eq]
  obtain ⟨s3, h3⟩ := testAndDelete_total hl
    (decreaseCounter (decreaseCounter s l) r) (by simpa using hk)
  have hk3 : s3.kind = k := by
    rw [(testAndDelete_evolves hev h3).1]; simpa using hk
  obtain ⟨s4, h4⟩ := testAndDelete_total hr s3 hk3
  exact ⟨s4, by simp [h3, h4]⟩

/-- On a graph with a rank that drops along every edge, `delete p` returns as
soon as the allowed nesting depth exceeds the rank of `p`, whatever the
counters are. -/
theorem deleteExpr_total {k : Nat → Payload} {rank : Nat → Nat} (hr : Ranked k rank) :
    ∀ (fuel : Nat) (s : Heap) (p : Nat), s.kind = k → rank p < fuel →
      ∃ s', deleteExpr fuel s p = some s' := by
  intro fuel
  induction fuel with
  | zero => intro s p _ h; omega
  | succ n ih =>
    intro s p hk hp
    rw [deleteExpr_succ]
    have hchild : ∀ c ∈ (k p).children, ∀ t : Heap, t.kind = k →
        ∃ t', deleteExpr n t c = some t' := by
      intro c hc t ht
      exact ih t c ht (by have := hr p c hc; omega)
    have hbody : ∃ s1, destructorBody (deleteExpr n) s (s.kind p) = some s1 := by
      rw [hk]
      cases hkp : k p with
      | IntLiteral v => exact ⟨s, rfl⟩
      | VarUse v => exact ⟨s, rfl⟩
      | Comparison o l r =>
        rw [hkp] at hchild
        exact ComparisonNode.destructor_total (deleteExpr_evolves n)
          (hchild l (by simp [Payload.children])) (hchild r (by simp [Payload.children])) s hk
      | Arithmetic o l =>
        rw [hkp] at hchild
        exact deleteAllSubtrees_total (deleteExpr_evolves n) l hchild s hk
      | Call o l =>
        rw [hkp] at hchild
        exact deleteAllSubtrees_total (deleteExpr_evolves n) l hchild s hk
    obtain ⟨s1, h1⟩ := hbody
    exact ⟨_, by rw [h1]; rfl⟩

theorem FrameInv.evolves {k : Nat → Payload} {D : Nat → Prop} {s t : Heap}
    (h : FrameInv k D s) (hst : Evolves s t) : FrameInv k D t := by
  refine ⟨hst.1.trans h.1, fun a c ha hc => ?_⟩
  rcases h.2 a c ha hc with hd | hle
  · exact Or.inl hd
  · exact Or.inr ((hst.2.2.1 c).trans hle)

section Frame

variable {k : Nat → Payload} {D : Nat → Prop} {x : Nat} {del : Heap → Nat → Option Heap}

theorem testAndDelete_frame (hdel : DelFrames k D x del) {s s' : Heap} {c : Nat}
    (hinv : FrameInv k D s) (hc : D c ∨ s.counter c < 0)
    (h : testAndDelete del s c = some s') :
    s'.counter x = s.counter x ∧
      s'.reclaims x = s.reclaims x + (if c = x ∧ s.counter c = 0 then 1 else 0) := by
  unfold testAndDelete at h
  rw [zeroCounter_fst] at h
  by_cases h0 : s.counter c = 0
  · simp only [h0, decide_True, if_true] at h
    have hD : D c := by
      rcases hc with hd | hlt
      · exact hd
      · omega
    have := hdel _ c s' (hinv.evolves (evolves_zeroCounter s c)) hD h
    simp only [zeroCounter_counter, zeroCounter_reclaims] at this
    refine ⟨this.1, ?_⟩
    rw [this.2]
    by_cases hcx : c = x
    · subst hcx; simp [h0]
    · simp [hcx]
  · simp only [h0, decide_False] at h
    simp only [Bool.false_eq_true, if_false, Option.some.injEq] at h
    subst h
    simp [h0]

/-- Accounting for node `x` while `deleteAllSubtrees` walks a child list. -/
theorem deleteAllSubtrees_frame (hdel : DelFrames k D x del)
    (hev : ∀ s c s', del s c = some s' → Evolves s s') :
    ∀ (l : List Nat) (s s' : Heap), FrameInv k D s →
      (∀ c ∈ l, D c ∨ s.counter c ≤ 0) →
      deleteAllSubtrees del s l = some s' →
      s'.counter x = s.counter x - (l.count x : Int) ∧
        s'.reclaims x = s.reclaims x +
          (if 0 < s.counter x ∧ s.counter x ≤ (l.count x : Int) then 1 else 0) := by
  intro l
  induction l with
  | nil =>
    intro s s' _ _ h
    cases h
    have : ¬ (0 < s.counter x ∧ s.counter x ≤ 0) := by omega
    simp [this]
  | cons c t ih =>
    intro s s' hinv hl h
    rw [deleteAllSubtrees_cons] at h
    obtain ⟨s2, h2, h3⟩ := Option.bind_eq_some.mp h
    have hinv1 : FrameInv k D (decreaseCounter s c) := hinv.evolves (evolves_decreaseCounter s c)
    have hc1 : D c ∨ (decreaseCounter s c).counter c < 0 := by
      rcases hl c (List.mem_cons_self c t) with hd | hle
      · exact Or.inl hd
      · right; rw [decreaseCounter_counter_same]; omega
    have hstep := testAndDelete_frame hdel hinv1 hc1 h2
    have hev2 : Evolves s s2 :=
      (evolves_decreaseCounter s c).trans (testAndDelete_evolves hev h2)
    have hl2 : ∀ d ∈ t, D d ∨ s2.counter d ≤ 0 := by
      intro d hd
      rcases hl d (List.mem_cons_of_mem c hd) with h' | h'
      · exact Or.inl h'
      · exact Or.inr ((hev2.2.2.1 d).trans h')
    have hrest := ih s2 s' (hinv.evolves hev2) hl2 h3
    rw [decreaseCounter_counter_same, decreaseCounter_reclaims, decreaseCounter_counter] at hstep
    obtain ⟨hc2, hr2⟩ := hstep
    obtain ⟨hc3, hr3⟩ := hrest
    rw [hc3, hr3, hc2, hr2, List.count_cons]
    by_cases hcx : c = x
    · subst hcx
      simp only [beq_self_eq_true, if_true, true_and]
      push_cast
      refine ⟨by omega, ?_⟩
      split_ifs <;> omega
    · have hxc : ¬ x = c := fun e => hcx e.symm
      have hb : (c == x) = false := by simpa using hcx
      simp only [hb, hxc, hcx, if_false, false_and, Bool.false_eq_true]
      push_cast
      refine ⟨by omega, ?_⟩
      split_ifs <;> omega

end Frame

section Frame2

variable {k : Nat → Payload} {D : Nat → Prop} {x : Nat} {del : Heap → Nat → Option Heap}

theorem count_pair (l r x : Nat) :
    [l, r].count x = (if l = x then 1 else 0) + (if r = x then 1 else 0) := by
  by_cases hl : l = x <;> by_cases hr : r = x <;> simp [List.count_cons, hl, hr]

/-- Accounting for node `x` in the body of `~ComparisonNode`: both decrements
come first, so each of the two tests that is made on `x` sees the same value. -/
theorem ComparisonNode.destructor_frame (hdel : DelFrames k D x del)
    (hev : ∀ s c s', del s c = some s' → Evolves s s') {s s' : Heap} {l r : Nat}
    (hinv : FrameInv k D s) (hl : D l ∨ s.counter l ≤ 0) (hr : D r ∨ s.counter r ≤ 0)
    (h : ComparisonNode.destructor del s l r = some s') :
    s'.counter x = s.counter x - ([l, r].count x : Int) ∧
      s'.reclaims x = s.reclaims x +
        (if s.counter x = ([l, r].count x : Int) then [l, r].count x else 0) := by
  rw [ComparisonNode.destructor_eq] at h
  obtain ⟨s3, h3, h4⟩ := Option.bind_eq_some.mp h
  have he2 : Evolves s (decreaseCounter (decreaseCounter s l) r) :=
    (evolves_decreaseCounter s l).trans (evolves_decreaseCounter _ r)
  have hl2 : D l ∨ (decreaseCounter (decreaseCounter s l) r).counter l < 0 := by
    rcases hl with hd | hle
    · exact Or.inl hd
    · right
      rw [decreaseCounter_counter, decreaseCounter_counter_same]
      split <;> omega
  have hstep1 := testAndDelete_frame hdel (hinv.evolves he2) hl2 h3
  have he3 : Evolves (decreaseCounter (decreaseCounter s l) r) s3 := testAndDelete_evolves hev h3
  have hr3 : D r ∨ s3.counter r < 0 := by
    rcases hr with hd | hle
    · exact Or.inl hd
    · right
      have h1 := he3.2.2.1 r
      rw [decreaseCounter_counter_same, decreaseCounter_counter] at h1
      split at h1 <;> omega
  have hstep2 := testAndDelete_frame hdel ((hinv.evolves he2).evolves he3) hr3 h4
  obtain ⟨hc1, hr1⟩ := hstep1
  obtain ⟨hc2, hr2⟩ := hstep2
  rw [decreaseCounter_reclaims, decreaseCounter_reclaims] at hr1
  rw [decreaseCounter_counter, decreaseCounter_counter] at hc1
  rw [decreaseCounter_counter, decreaseCounter_counter] at hr1
  rw [count_pair]
  rw [hc2, hr2, hr1, hc1]
  by_cases hlx : l = x
  · subst hlx
    by_cases hrx : r = l
    · subst hrx
      rw [hc1]
      simp only [if_true, true_and]
      push_cast
      refine ⟨by omega, ?_⟩
      split_ifs <;> omega
    · have hrx2 : ¬ l = r := fun e => hrx e.symm
      simp only [if_true, true_and, hrx, hrx2, if_false, false_and]
      push_cast
      refine ⟨by omega, ?_⟩
      split_ifs <;> omega
  · have hlx2 : ¬ x = l := fun e => hlx e.symm
    by_cases hrx : r = x
    · subst hrx
      rw [hc1]
      simp only [if_true, true_and, hlx, hlx2, if_false, false_and]
      push_cast
      refine ⟨by omega, ?_⟩
      split_ifs <;> omega
    · have hrx2 : ¬ x = r := fun e => hrx e.symm
      simp only [hlx, hlx2, hrx, hrx2, if_false, false_and]
      push_cast
      refine ⟨by omega, ?_⟩
      split_ifs <;> omega

/-- Accounting for node `x` in the destructor of a node that has `x` as a
child at most once. -/
theorem destructorBody_frame (hdel : DelFrames k D x del)
    (hev : ∀ s c s', del s c = some s' → Evolves s s') {s s' : Heap} {p : Nat}
    (hinv : FrameInv k D s) (hch : ∀ c ∈ (k p).children, D c ∨ s.counter c ≤ 0)
    (hcount : (k p).children.count x ≤ 1)
    (h : destructorBody del s (k p) = some s') :
    s'.counter x = s.counter x - ((k p).children.count x : Int) ∧
      s'.reclaims x = s.reclaims x +
        (if (k p).children.count x = 1 ∧ s.counter x = 1 then 1 else 0) := by
  cases hkp : k p with
  | IntLiteral v => rw [hkp] at h; cases h; simp [Payload.children]
  | VarUse v => rw [hkp] at h; cases h; simp [Payload.children]
  | Comparison o l r =>
    rw [hkp] at h hch hcount
    simp only [Payload.children] at hch hcount ⊢
    have := ComparisonNode.destructor_frame hdel hev hinv (hch l (by simp)) (hch r (by simp)) h
    refine ⟨this.1, ?_⟩
    rw [this.2]
    have hc : [l, r].count x = 0 ∨ [l, r].count x = 1 := by omega
    rcases hc with h0 | h1
    · simp [h0]
    · simp [h1]
  | Arithmetic o l =>
    rw [hkp] at h hch hcount
    simp only [Payload.children] at hch hcount ⊢
    have := deleteAllSubtrees_frame hdel hev l s s' hinv hch h
    refine ⟨this.1, ?_⟩
    rw [this.2]
    have hc : l.count x = 0 ∨ l.count x = 1 := by omega
    rcases hc with h0 | h1
    · have hn : ¬ (0 < s.counter x ∧ s.counter x ≤ 0) := by omega
      simp [h0, hn]
    · have hn : (0 < s.counter x ∧ s.counter x ≤ 1) ↔ s.counter x = 1 := by omega
      simp [h1, hn]
  | Call o l =>
    rw [hkp] at h hch hcount
    simp only [Payload.children] at hch hcount ⊢
    have := deleteAllSubtrees_frame hdel hev l s s' hinv hch h
    refine ⟨this.1, ?_⟩
    rw [this.2]
    have hc : l.count x = 0 ∨ l.count x = 1 := by omega
    rcases hc with h0 | h1
    · have hn : ¬ (0 < s.counter x ∧ s.counter x ≤ 0) := by omega
      simp [h0, hn]
    · have hn : (0 < s.counter x ∧ s.counter x ≤ 1) ↔ s.counter x = 1 := by omega
      simp [h1, hn]

/-- Frame rule: when `x` is not a child of any node of `D`, a `delete` that
starts in `D` leaves the counter of `x` alone and reclaims `x` only if `x` is
the node the `delete` was applied to. -/
theorem deleteExpr_frame (hx : ∀ a, D a → x ∉ (k a).children) :
    ∀ fuel : Nat, DelFrames k D x (deleteExpr fuel) := by
  intro fuel
  induction fuel with
  | zero => intro s c s' _ _ h; cases h
  | succ n ih =>
    intro s p s' hinv hp h
    rw [deleteExpr_succ] at h
    obtain ⟨s1, h1, rfl⟩ := Option.map_eq_some'.mp h
    rw [hinv.1] at h1
    have hcount : (k p).children.count x = 0 := List.count_eq_zero_of_not_mem (hx p hp)
    have := destructorBody_frame ih (deleteExpr_evolves n) hinv
      (fun c hc => hinv.2 p c hp hc) (by omega) h1
    rw [hcount] at this
    simp [this.1, this.2]

end Frame2

@[simp] theorem alloc_trace (s : Heap) (k : Payload) : (alloc s k).trace = s.trace := rfl

@[simp] theorem alloc_reclaims (s : Heap) (k : Payload) (b : Nat) :
    (alloc s k).reclaims b = s.reclaims b := rfl

@[simp] theorem alloc_negatives (s : Heap) (k : Payload) :
    (alloc s k).negatives = s.negatives := rfl

@[simp] theorem alloc_decreases (s : Heap) (k : Payload) (b : Nat) :
    (alloc s k).decreases b = s.decreases b := rfl

@[simp] theorem alloc_increases (s : Heap) (k : Payload) (b : Nat) :
    (alloc s k).increases b = s.increases b := rfl

@[simp] theorem alloc_size (s : Heap) (k : Payload) : (alloc s k).size = s.size + 1 := rfl

@[simp] theorem alloc_counter_new (s : Heap) (k : Payload) : (alloc s k).counter s.size = 0 := by
  simp [alloc, ExprNode]

theorem alloc_counter_old (s : Heap) (k : Payload) {n : Nat} (h : n ≠ s.size) :
    (alloc s k).counter n = s.counter n := by
  simp [alloc, ExprNode, Function.update_noteq h]

@[simp] theorem alloc_kind_new (s : Heap) (k : Payload) : (alloc s k).kind s.size = k := by
  simp [alloc, ExprNode]

theorem alloc_kind_old (s : Heap) (k : Payload) {n : Nat} (h : n ≠ s.size) :
    (alloc s k).kind n = s.kind n := by
  simp [alloc, ExprNode, Function.update_noteq h]

theorem incrementCounterList_counter :
    ∀ (l : List Nat) (s : Heap) (n : Nat),
      (incrementCounterList s l).counter n = s.counter n + (l.count n : Int) := by
  intro l
  induction l with
  | nil => intro s n; simp [incrementCounterList]
  | cons c t ih =>
    intro s n
    rw [incrementCounterList, ih, increaseCounter_counter, List.count_cons]
    by_cases h : n = c
    · subst h; simp; omega
    · have h2 : (c == n) = false := by simpa using fun e => h e.symm
      simp [h, h2]

theorem incrementCounterList_trace :
    ∀ (l : List Nat) (s : Heap),
      (incrementCounterList s l).trace = s.trace ++ l.map Event.increase := by
  intro l
  induction l with
  | nil => intro s; simp [incrementCounterList]
  | cons c t ih => intro s; rw [incrementCounterList, ih]; simp

@[simp] theorem incrementCounterList_kind :
    ∀ (l : List Nat) (s : Heap), (incrementCounterList s l).kind = s.kind := by
  intro l
  induction l with
  | nil => intro s; rfl
  | cons c t ih => intro s; rw [incrementCounterList, ih]; rfl

@[simp] theorem incrementCounterList_size :
    ∀ (l : List Nat) (s : Heap), (incrementCounterList s l).size = s.size := by
  intro l
  induction l with
  | nil => intro s; rfl
  | cons c t ih => intro s; rw [incrementCounterList, ih]; rfl

@[simp] theorem emit_negatives (s : Heap) (e : Event) :
    (s.emit e).negatives = s.negatives +
      (match e with
        | Event.negative _ => 1
        | _ => 0) := by
  cases e <;> simp [Heap.negatives, Heap.emit, List.countP_append]

@[simp] theorem decreaseCounter_negatives (s : Heap) (a : Nat) :
    (decreaseCounter s a).negatives = s.negatives := by
  simp [Heap.negatives, decreaseCounter, List.countP_append]

@[simp] theorem increaseCounter_negatives (s : Heap) (a : Nat) :
    (increaseCounter s a).negatives = s.negatives := by
  simp [Heap.negatives, increaseCounter, List.countP_append]

theorem zeroCounter_negatives (s : Heap) (a : Nat) :
    (zeroCounter s a).2.negatives = s.negatives + (if s.counter a < 0 then 1 else 0) := by
  rw [zeroCounter_snd]
  split <;> simp

theorem Payload.children_of_isLeaf {k : Payload} (h : k.isLeaf = true) : k.children = [] := by
  cases k <;> simp_all [Payload.isLeaf, Payload.children]

/-- Deleting a leaf only records the reclamation. -/
theorem deleteExpr_leaf (fuel : Nat) (s : Heap) (a : Nat) (h : (s.kind a).isLeaf = true) :
    deleteExpr (fuel + 1) s a = some (s.emit (Event.reclaim a)) := by
  rw [deleteExpr_succ]
  cases hk : s.kind a <;> simp_all [Payload.isLeaf, destructorBody]

theorem zeroCounter_snd_of_nonneg (s : Heap) (c : Nat) (h : 0 ≤ s.counter c) :
    (zeroCounter s c).2 = s.emit (Event.zeroTest c) := by
  rw [zeroCounter_snd, if_neg (by omega)]

theorem testAndDelete_of_zero (del : Heap → Nat → Option Heap) (s : Heap) (c : Nat)
    (h : s.counter c = 0) :
    testAndDelete del s c = del (s.emit (Event.zeroTest c)) c := by
  unfold testAndDelete
  rw [zeroCounter_fst, zeroCounter_snd_of_nonneg s c (by omega)]
  simp [h]

theorem testAndDelete_of_pos (del : Heap → Nat → Option Heap) (s : Heap) (c : Nat)
    (h : 0 < s.counter c) :
    testAndDelete del s c = some (s.emit (Event.zeroTest c)) := by
  unfold testAndDelete
  rw [zeroCounter_fst, zeroCounter_snd_of_nonneg s c (by omega)]
  have : ¬ s.counter c = 0 := by omega
  simp [this]

theorem deleteAllSubtrees_onlyDecrements (del : Heap → Nat → Option Heap) :
    ∀ (l : List Nat) (s : Heap), (∀ c ∈ l, (l.count c : Int) < s.counter c) →
      ∃ t, deleteAllSubtrees del s l = some t ∧ OnlyDecrements l s t := by
  intro l
  induction l with
  | nil =>
    intro s _
    exact ⟨s, rfl, rfl, rfl, by simp, by simp, rfl, by simp, by simp⟩
  | cons c r ih =>
    intro s h
    have hc := h c (List.mem_cons_self c r)
    rw [List.count_cons_self] at hc
    push_cast at hc
    have hpos : 0 < (decreaseCounter s c).counter c := by
      rw [decreaseCounter_counter_same]; omega
    rw [deleteAllSubtrees_cons, testAndDelete_of_pos _ _ _ hpos]
    simp only [Option.some_bind]
    have hr : ∀ d ∈ r, (r.count d : Int) <
        ((decreaseCounter s c).emit (Event.zeroTest c)).counter d := by
      intro d hd
      have := h d (List.mem_cons_of_mem c hd)
      rw [List.count_cons] at this
      rw [emit_counter, decreaseCounter_counter]
      by_cases hdc : d = c
      · subst hdc; simp at this ⊢; omega
      · have hb : (c == d) = false := by simpa using fun e => hdc e.symm
        simp [hb] at this
        simp [hdc]; omega
    obtain ⟨t, ht, hk, hsz, hcnt, hrec, hneg, hdec, hinc⟩ := ih _ hr
    refine ⟨t, ht, by simpa using hk, by simpa using hsz, fun a => ?_, fun a => ?_, ?_,
      fun a => ?_, fun a => ?_⟩
    · rw [hcnt, emit_counter, decreaseCounter_counter, List.count_cons]
      by_cases hac : a = c
      · subst hac; simp; omega
      · have hb : (c == a) = false := by simpa using fun e => hac e.symm
        simp [hac, hb]
    · rw [hrec]; simp
    · rw [hneg]; simp
    · rw [hdec, List.count_cons]
      by_cases hac : c = a
      · subst hac; simp; omega
      · have hb : (c == a) = false := by simpa using hac
        simp [hac, hb]
    · rw [hinc]; simp

theorem ComparisonNode.destructor_onlyDecrements (del : Heap → Nat → Option Heap)
    (s : Heap) (l r : Nat) (h : ∀ c ∈ [l, r], (([l, r].count c : Nat) : Int) < s.counter c) :
    ∃ t, ComparisonNode.destructor del s l r = some t ∧ OnlyDecrements [l, r] s t := by
  have hl := h l (by simp)
  have hr := h r (by simp)
  rw [count_pair] at hl hr
  have hcnt : ∀ a, (decreaseCounter (decreaseCounter s l) r).counter a =
      s.counter a - ([l, r].count a : Int) := by
    intro a
    rw [decreaseCounter_counter, decreaseCounter_counter, count_pair]
    by_cases h1 : a = l <;> by_cases h2 : a = r <;>
      simp [h1, h2, eq_comm] <;> omega
  have hposl : 0 < (decreaseCounter (decreaseCounter s l) r).counter l := by
    rw [hcnt, count_pair]; omega
  have hposr : 0 < ((decreaseCounter (decreaseCounter s l) r).emit (Event.zeroTest l)).counter r := by
    rw [emit_counter, hcnt, count_pair]; omega
  rw [ComparisonNode.destructor_eq, testAndDelete_of_pos _ _ _ hposl]
  simp only [Option.some_bind]
  rw [testAndDelete_of_pos _ _ _ hposr]
  refine ⟨_, rfl, rfl, rfl, fun a => by simpa using hcnt a, fun a => by simp, by simp,
    fun a => ?_, fun a => by simp⟩
  simp only [emit_decreases, decreaseCounter_decreases, count_pair]
  simp
  omega

theorem destructorBody_onlyDecrements (del : Heap → Nat → Option Heap) (s : Heap) (k : Payload)
    (h : ∀ c ∈ k.children, ((k.children.count c : Nat) : Int) < s.counter c) :
    ∃ t, destructorBody del s k = some t ∧ OnlyDecrements k.children s t := by
  cases k with
  | IntLiteral v => exact ⟨s, rfl, rfl, rfl, by simp [Payload.children], by simp, rfl,
      by simp [Payload.children], by simp⟩
  | VarUse v => exact ⟨s, rfl, rfl, rfl, by simp [Payload.children], by simp, rfl,
      by simp [Payload.children], by simp⟩
  | Comparison o l r => exact ComparisonNode.destructor_onlyDecrements del s l r h
  | Arithmetic o l => exact deleteAllSubtrees_onlyDecrements del l s h
  | Call o l => exact deleteAllSubtrees_onlyDecrements del l s h

@[simp] theorem incrementCounterList_reclaims :
    ∀ (l : List Nat) (s : Heap) (b : Nat), (incrementCounterList s l).reclaims b = s.reclaims b := by
  intro l
  induction l with
  | nil => intro s b; rfl
  | cons c t ih => intro s b; rw [incrementCounterList, ih]; simp

@[simp] theorem incrementCounterList_negatives :
    ∀ (l : List Nat) (s : Heap), (incrementCounterList s l).negatives = s.negatives := by
  intro l
  induction l with
  | nil => intro s; rfl
  | cons c t ih => intro s; rw [incrementCounterList, ih]; simp

@[simp] theorem incrementCounterList_decreases :
    ∀ (l : List Nat) (s : Heap) (b : Nat),
      (incrementCounterList s l).decreases b = s.decreases b := by
  intro l
  induction l with
  | nil => intro s b; rfl
  | cons c t ih => intro s b; rw [incrementCounterList, ih]; simp

theorem incrementCounterList_increases :
    ∀ (l : List Nat) (s : Heap) (b : Nat),
      (incrementCounterList s l).increases b = s.increases b + l.count b := by
  intro l
  induction l with
  | nil => intro s b; rfl
  | cons c t ih =>
    intro s b
    rw [incrementCounterList, ih, increaseCounter_increases, List.count_cons]
    by_cases h : c = b
    · subst h; simp; omega
    · have hb : (c == b) = false := by simpa using h
      simp [h, hb]

theorem roundTrip_of_children_referenced (s : Heap) (k : Payload) (fuel : Nat)
    (h : ∀ c ∈ k.children, c < s.size ∧ 1 ≤ s.counter c) :
    RoundTrip s (s.size, incrementCounterList (alloc s k) k.children) k.children fuel := by
  set s1 := incrementCounterList (alloc s k) k.children with hs1
  have hkp : s1.kind s.size = k := by rw [hs1, incrementCounterList_kind]; simp
  have hcnt : ∀ n, n < s.size → s1.counter n = s.counter n + (k.children.count n : Int) := by
    intro n hn
    rw [hs1, incrementCounterList_counter, alloc_counter_old s k (by omega)]
  have hex : ∀ c ∈ k.children, ((k.children.count c : Nat) : Int) < s1.counter c := by
    intro c hc
    obtain ⟨h1, h2⟩ := h c hc
    rw [hcnt c h1]; omega
  obtain ⟨t, ht, -, -, hc, hrec, hneg, hdec, hinc⟩ :=
    destructorBody_onlyDecrements (deleteExpr fuel) s1 k hex
  refine ⟨t.emit (Event.reclaim s.size), ?_, fun n hn => ?_, fun n hn => ?_, ?_, fun n => ⟨?_, ?_⟩,
    ?_⟩
  · show deleteExpr (fuel + 1) s1 s.size = _
    rw [deleteExpr_succ, hkp, ht]; rfl
  · rw [emit_counter, hc, hcnt n hn]; omega
  · have hn2 : ¬ s.size = n := fun e => hn e.symm
    simp [hrec, hs1, hn2]
  · simp [hrec, hs1]
  · simp [hinc, hs1, incrementCounterList_increases]
  · simp [hdec, hs1]
  · simp [hneg, hs1]

theorem Reach.rank_le {k : Nat → Payload} {rank : Nat → Nat} (hr : Ranked k rank) {a b : Nat}
    (h : Reach k a b) : rank b ≤ rank a := by
  induction h with
  | refl => exact le_rfl
  | tail _ hbc ih => exact (Nat.le_of_lt (hr _ _ hbc)).trans ih

theorem Reach.child {k : Nat → Payload} {a b c : Nat} (h : Reach k a b)
    (hc : c ∈ (k b).children) : Reach k a c :=
  Relation.ReflTransGen.tail h hc

/-- Deleting a node `r` that has `x` as a child exactly once, when no other
node that the cascade can reach and delete has `x` as a child: the counter of
`x` drops by one, and `x` is reclaimed (once) exactly if its counter was 1.
`Z` is a set of nodes that cannot be deleted because their counter is already
at most zero. -/
theorem deleteExpr_single_edge {k : Nat → Payload} {rank : Nat → Nat} (hr : Ranked k rank)
    (Z : Nat → Prop) {s s' : Heap} {r x : Nat} {fuel : Nat}
    (hk : s.kind = k) (hone : (k r).children.count x = 1)
    (hpar : ∀ a, Reach k r a → a ≠ r → ¬ Z a → x ∉ (k a).children)
    (hZ : ∀ z, Z z → s.counter z ≤ 0)
    (h : deleteExpr fuel s r = some s') :
    s'.counter x = s.counter x - 1 ∧
      s'.reclaims x = s.reclaims x + (if s.counter x = 1 then 1 else 0) := by
  cases fuel with
  | zero => cases h
  | succ n =>
    rw [deleteExpr_succ] at h
    obtain ⟨s1, h1, rfl⟩ := Option.map_eq_some'.mp h
    rw [hk] at h1
    have hstep : ∀ a c, Reach k r a → c ∈ (k a).children →
        (Reach k r c ∧ c ≠ r ∧ ¬ Z c) ∨ s.counter c ≤ 0 := by
      intro a c ha hc
      by_cases hz : Z c
      · exact Or.inr (hZ c hz)
      · refine Or.inl ⟨ha.child hc, ?_, hz⟩
        intro e
        have h1 := hr a c hc
        have h2 := ha.rank_le hr
        rw [e] at h1
        omega
    have hinv : FrameInv k (fun a => Reach k r a ∧ a ≠ r ∧ ¬ Z a) s :=
      ⟨hk, fun a c ha hc => hstep a c ha.1 hc⟩
    have hx : ∀ a, (Reach k r a ∧ a ≠ r ∧ ¬ Z a) → x ∉ (k a).children :=
      fun a ha => hpar a ha.1 ha.2.1 ha.2.2
    have hb := destructorBody_frame (deleteExpr_frame hx n) (deleteExpr_evolves n) hinv
      (fun c hc => hstep r c Relation.ReflTransGen.refl hc) (by omega) h1
    rw [hone] at hb
    have hxr : ¬ r = x := by
      intro e
      have hmem : x ∈ (k r).children := List.count_pos_iff.mp (by omega)
      have := hr r x hmem
      rw [e] at this
      omega
    refine ⟨by rw [emit_counter, hb.1]; simp, ?_⟩
    rw [emit_reclaims, hb.2]
    simp [hxr]

theorem scenarioTwoParents_kind (a : Nat) :
    scenarioTwoParents.kind a =
      if a = 3 then Payload.Arithmetic "+" [0]
      else if a = 2 then Payload.Comparison "<" 0 1
      else if a = 0 then Payload.VarUse "v"
      else Payload.IntLiteral 0 := by
  simp only [scenarioTwoParents, ArithmeticNode, ComparisonNode, IntLiteralNode, VarUseNode,
    incrementCounterList, increaseCounter, alloc, ExprNode, Heap.empty, Function.update_apply]
  by_cases h3 : a = 3
  · simp [h3]
  · by_cases h2 : a = 2
    · simp [h2]
    · by_cases h0 : a = 0
      · simp [h0]
      · by_cases h1 : a = 1 <;> simp [h3, h2, h0, h1]

theorem scenarioTwoParents_ranked : Ranked scenarioTwoParents.kind id := by
  intro a c hc
  rw [scenarioTwoParents_kind] at hc
  split_ifs at hc with h3 h2 h0 <;> simp [Payload.children] at hc <;> simp only [id] <;> omega

theorem scenarioTwoParents_edges (a : Nat) :
    (scenarioTwoParents.kind a).children.count 0 = if a = 2 ∨ a = 3 then 1 else 0 := by
  rw [scenarioTwoParents_kind]
  by_cases h3 : a = 3
  · simp [h3, Payload.children]
  · by_cases h2 : a = 2
    · simp [h2, Payload.children]
    · by_cases h0 : a = 0 <;> simp [h3, h2, h0, Payload.children]

/-! ### Termination from well-foundedness of the child relation -/

theorem Ranked.wellFounded {k : Nat → Payload} {rank : Nat → Nat} (hr : Ranked k rank) :
    WellFounded (flip (Child k)) :=
  Subrelation.wf (fun {c a} (h : flip (Child k) c a) => hr a c h) (InvImage.wf rank Nat.lt_wfRel.wf)

theorem exists_common_bound {P : Nat → Nat → Prop}
    (hmono : ∀ c n m, n ≤ m → P n c → P m c) :
    ∀ l : List Nat, (∀ c ∈ l, ∃ n, P n c) → ∃ N, ∀ c ∈ l, P N c := by
  intro l
  induction l with
  | nil => intro _; exact ⟨0, fun c hc => absurd hc (List.not_mem_nil c)⟩
  | cons d t ih =>
    intro h
    obtain ⟨n, hn⟩ := h d (List.mem_cons_self d t)
    obtain ⟨N, hN⟩ := ih (fun c hc => h c (List.mem_cons_of_mem d hc))
    refine ⟨max n N, fun c hc => ?_⟩
    rcases List.mem_cons.mp hc with rfl | hc
    · exact hmono _ n _ (le_max_left n N) hn
    · exact hmono c N _ (le_max_right n N) (hN c hc)

theorem destructorBody_total {del : Heap → Nat → Option Heap} {k : Nat → Payload}
    (hev : ∀ s c s', del s c = some s' → Evolves s s') (p : Nat)
    (hdel : ∀ c ∈ (k p).children, ∀ s, s.kind = k → ∃ s', del s c = some s')
    (s : Heap) (hk : s.kind = k) : ∃ s1, destructorBody del s (k p) = some s1 := by
  cases hkp : k p with
  | IntLiteral v => exact ⟨s, rfl⟩
  | VarUse v => exact ⟨s, rfl⟩
  | Comparison o l r =>
    rw [hkp] at hdel
    exact ComparisonNode.destructor_total hev
      (hdel l (by simp [Payload.children])) (hdel r (by simp [Payload.children])) s hk
  | Arithmetic o l =>
    rw [hkp] at hdel
    exact deleteAllSubtrees_total hev l hdel s hk
  | Call o l =>
    rw [hkp] at hdel
    exact deleteAllSubtrees_total hev l hdel s hk

/-- When the child relation is well founded, every node has a nesting depth
from which on `delete` returns, whatever the counters are. -/
theorem deleteExpr_total_of_wf {k : Nat → Payload} (hwf : WellFounded (flip (Child k)))
    (p : Nat) :
    ∃ n, ∀ fuel, n ≤ fuel → ∀ t : Heap, t.kind = k → ∃ t', deleteExpr fuel t p = some t' := by
  induction p using hwf.induction with
  | _ a ih =>
    obtain ⟨N, hN⟩ := exists_common_bound
      (P := fun n c => ∀ fuel, n ≤ fuel → ∀ t : Heap, t.kind = k →
        ∃ t', deleteExpr fuel t c = some t')
      (fun c n m hnm h fuel hf => h fuel (le_trans hnm hf))
      (k a).children (fun c hc => ih c hc)
    refine ⟨N + 1, fun fuel hf t ht => ?_⟩
    obtain ⟨m, rfl⟩ : ∃ m, fuel = m + 1 := ⟨fuel - 1, by omega⟩
    rw [deleteExpr_succ, ht]
    obtain ⟨s1, h1⟩ := destructorBody_total (deleteExpr_evolves m) a
      (fun c hc u hu => hN c hc m (by omega) u hu) t ht
    exact ⟨_, by rw [h1]; rfl⟩

/-! ### Nodes a cascade cannot touch -/

/-- A `delete` of `p` leaves alone every node that is not a child of a node
reachable from `p`. -/
theorem deleteExpr_untouched {k : Nat → Payload} {s s' : Heap} {p x : Nat} {fuel : Nat}
    (hk : s.kind = k) (hx : ∀ a, Reach k p a → x ∉ (k a).children)
    (h : deleteExpr fuel s p = some s') :
    s'.counter x = s.counter x ∧ s'.reclaims x = s.reclaims x + (if p = x then 1 else 0) :=
  deleteExpr_frame (D := fun a => Reach k p a) hx fuel s p s'
    ⟨hk, fun _ _ ha hc => Or.inl (ha.child hc)⟩ Relation.ReflTransGen.refl h

theorem testAndDelete_untouched {k : Nat → Payload} {s s' : Heap} {c x : Nat} {fuel : Nat}
    (hk : s.kind = k) (hx : ∀ a, Reach k c a → x ∉ (k a).children)
    (h : testAndDelete (deleteExpr fuel) s c = some s') :
    s'.counter x = s.counter x ∧
      s'.reclaims x = s.reclaims x + (if c = x ∧ s.counter c = 0 then 1 else 0) :=
  testAndDelete_frame (D := fun a => Reach k c a) (deleteExpr_frame hx fuel)
    ⟨hk, fun _ _ ha hc => Or.inl (ha.child hc)⟩ (Or.inl Relation.ReflTransGen.refl) h

/-- In an acyclic graph a node is not a child of anything reachable from it. -/
theorem not_child_of_descendant {k : Nat → Payload} {rank : Nat → Nat} (hr : Ranked k rank)
    (p : Nat) : ∀ a, Reach k p a → p ∉ (k a).children := by
  intro a ha hmem
  have h1 := hr a p hmem
  have h2 := ha.rank_le hr
  omega

theorem not_child_of_unreachable {k : Nat → Payload} {p x : Nat} (hx : ¬ Reach k p x) :
    ∀ a, Reach k p a → x ∉ (k a).children :=
  fun _ ha hmem => hx (ha.child hmem)

theorem Reach.head_child {k : Nat → Payload} {p c a : Nat} (hc : c ∈ (k p).children)
    (h : Reach k c a) : Reach k p a :=
  Relation.ReflTransGen.head hc h

theorem SafeBelow.of_child {k : Nat → Payload} {p c : Nat} (h : SafeBelow k p)
    (hc : c ∈ (k p).children) : SafeBelow k c :=
  fun a o l r ha hk => h a o l r (Reach.head_child hc ha) hk

/-! ### Reclaimed exactly when the counter reaches zero -/

theorem cross_trans {s t u : Heap} {x : Nat} (h1 : t.counter x ≤ s.counter x)
    (h2 : u.counter x ≤ t.counter x) : cross s u x = cross s t x + cross t u x := by
  unfold cross
  split_ifs <;> omega

theorem cross_of_counter_eq {s t : Heap} {x : Nat} (h : t.counter x = s.counter x) :
    cross s t x = 0 := by
  unfold cross
  rw [h]
  split_ifs <;> omega

section Crossing

variable {k : Nat → Payload} {rank : Nat → Nat} {n : Nat}

theorem testAndDelete_crossing (hdel : CrossLaw k (deleteExpr n)) {s s' : Heap} {c : Nat}
    (hk : s.kind = k) (hsafe : SafeBelow k c)
    (h : testAndDelete (deleteExpr n) s c = some s') (x : Nat) :
    s'.reclaims x = s.reclaims x + (if x = c ∧ s.counter c = 0 then 1 else 0) + cross s s' x := by
  unfold testAndDelete at h
  rw [zeroCounter_fst] at h
  by_cases h0 : s.counter c = 0
  · simp only [h0, decide_True, if_true] at h
    have := hdel _ c s' (by simpa using hk) hsafe h x
    simp only [zeroCounter_reclaims] at this
    rw [this]
    have hc : cross (zeroCounter s c).2 s' x = cross s s' x := by
      unfold cross; simp
    rw [hc]
    simp [h0]
  · simp only [h0, decide_False, Bool.false_eq_true, if_false, Option.some.injEq] at h
    subst h
    rw [cross_of_counter_eq (by simp)]
    simp [h0]

/-- One element of a child list: decrement, test, possibly delete. -/
theorem slot_crossing (hr : Ranked k rank) (hdel : CrossLaw k (deleteExpr n)) {s s' : Heap}
    {c : Nat} (hk : s.kind = k) (hsafe : SafeBelow k c)
    (h : testAndDelete (deleteExpr n) (decreaseCounter s c) c = some s') (x : Nat) :
    s'.reclaims x = s.reclaims x + cross s s' x := by
  have hlaw := testAndDelete_crossing hdel (by simpa using hk) hsafe h x
  have hown := (testAndDelete_untouched (x := c) (by simpa using hk)
    (not_child_of_descendant hr c) h).1
  have hev := (testAndDelete_evolves (deleteExpr_evolves n) h).2.2.1 x
  rw [decreaseCounter_reclaims] at hlaw
  rw [hlaw]
  unfold cross
  rw [decreaseCounter_counter] at hev
  by_cases hxc : x = c
  · subst hxc
    rw [decreaseCounter_counter_same] at hown ⊢
    simp only [true_and]
    split_ifs <;> omega
  · rw [decreaseCounter_counter_other _ _ _ hxc]
    simp only [hxc, false_and, if_false] at hev ⊢
    split_ifs <;> omega

theorem deleteAllSubtrees_crossing (hr : Ranked k rank) (hdel : CrossLaw k (deleteExpr n)) :
    ∀ (l : List Nat) (s s' : Heap), s.kind = k → (∀ c ∈ l, SafeBelow k c) →
      deleteAllSubtrees (deleteExpr n) s l = some s' →
      ∀ x, s'.reclaims x = s.reclaims x + cross s s' x := by
  intro l
  induction l with
  | nil =>
    intro s s' _ _ h x
    cases h
    rw [cross_of_counter_eq rfl]; rfl
  | cons c t ih =>
    intro s s' hk hsafe h x
    rw [deleteAllSubtrees_cons] at h
    obtain ⟨s2, h2, h3⟩ := Option.bind_eq_some.mp h
    have hev2 : Evolves s s2 :=
      (evolves_decreaseCounter s c).trans (testAndDelete_evolves (deleteExpr_evolves n) h2)
    have hev3 : Evolves s2 s' := deleteAllSubtrees_evolves (deleteExpr_evolves n) _ _ _ h3
    have h1 := slot_crossing hr hdel hk (hsafe c (List.mem_cons_self c t)) h2 x
    have h4 := ih s2 s' (hev2.1.trans hk) (fun d hd => hsafe d (List.mem_cons_of_mem c hd)) h3 x
    rw [h4, h1, cross_trans (hev2.2.2.1 x) (hev3.2.2.1 x)]
    omega

theorem ComparisonNode.destructor_crossing (hr : Ranked k rank)
    (hdel : CrossLaw k (deleteExpr n)) {s s' : Heap} {l r : Nat} (hk : s.kind = k)
    (hl : SafeBelow k l) (hrs : SafeBelow k r) (hne : l ≠ r) (hlr : ¬ Reach k l r)
    (h : ComparisonNode.destructor (deleteExpr n) s l r = some s') (x : Nat) :
    s'.reclaims x = s.reclaims x + cross s s' x := by
  rw [ComparisonNode.destructor_eq] at h
  obtain ⟨s3, h3, h4⟩ := Option.bind_eq_some.mp h
  have hk2 : (decreaseCounter (decreaseCounter s l) r).kind = k := by simpa using hk
  have hev3 := testAndDelete_evolves (deleteExpr_evolves n) h3
  have hk3 : s3.kind = k := hev3.1.trans hk2
  have hev4 := testAndDelete_evolves (deleteExpr_evolves n) h4
  have hlaw3 := testAndDelete_crossing hdel hk2 hl h3 x
  have hlaw4 := testAndDelete_crossing hdel hk3 hrs h4 x
  have hownl := (testAndDelete_untouched (x := l) hk2 (not_child_of_descendant hr l) h3).1
  have hothr := (testAndDelete_untouched (x := r) hk2 (not_child_of_unreachable hlr) h3).1
  have hownr := (testAndDelete_untouched (x := r) hk3 (not_child_of_descendant hr r) h4).1
  have hm3 := hev3.2.2.1 x
  have hm4 := hev4.2.2.1 x
  have hrl : r ≠ l := fun e => hne e.symm
  rw [decreaseCounter_reclaims, decreaseCounter_reclaims] at hlaw3
  rw [hlaw4, hlaw3]
  unfold cross
  rw [decreaseCounter_counter, decreaseCounter_counter] at hm3
  rw [decreaseCounter_counter, decreaseCounter_counter] at hownl hothr
  simp only [decreaseCounter_counter]
  by_cases hxl : x = l
  · subst hxl
    simp only [hne, hrl, if_true, if_false, true_and, false_and] at *
    split_ifs <;> omega
  · by_cases hxr : x = r
    · subst hxr
      simp only [hne, hrl, hxl, if_true, if_false, true_and, false_and] at *
      split_ifs <;> omega
    · simp only [hxl, hxr, if_false, false_and] at *
      split_ifs <;> omega

end Crossing

theorem destructorBody_crossing {k : Nat → Payload} {rank : Nat → Nat} {n : Nat}
    (hr : Ranked k rank) (hdel : CrossLaw k (deleteExpr n)) {s s' : Heap} {p : Nat}
    (hk : s.kind = k) (hsafe : SafeBelow k p)
    (h : destructorBody (deleteExpr n) s (k p) = some s') (x : Nat) :
    s'.reclaims x = s.reclaims x + cross s s' x := by
  have hchild : ∀ c ∈ (k p).children, SafeBelow k c := fun c hc => hsafe.of_child hc
  cases hkp : k p with
  | IntLiteral v => rw [hkp] at h; cases h; rw [cross_of_counter_eq rfl]; rfl
  | VarUse v => rw [hkp] at h; cases h; rw [cross_of_counter_eq rfl]; rfl
  | Comparison o l r =>
    rw [hkp] at h hchild
    obtain ⟨hne, hlr⟩ := hsafe p o l r Relation.ReflTransGen.refl hkp
    exact ComparisonNode.destructor_crossing hr hdel hk (hchild l (by simp [Payload.children]))
      (hchild r (by simp [Payload.children])) hne hlr h x
  | Arithmetic o l =>
    rw [hkp] at h hchild
    exact deleteAllSubtrees_crossing hr hdel l s s' hk hchild h x
  | Call o l =>
    rw [hkp] at h hchild
    exact deleteAllSubtrees_crossing hr hdel l s s' hk hchild h x

/-- On an acyclic graph whose comparison nodes below `p` are safe, `delete p`
reclaims `p` once and, besides, exactly the nodes whose counter it takes from
a positive value to zero, each of them once. -/
theorem deleteExpr_crossing {k : Nat → Payload} {rank : Nat → Nat} (hr : Ranked k rank) :
    ∀ fuel : Nat, CrossLaw k (deleteExpr fuel) := by
  intro fuel
  induction fuel with
  | zero => intro s c s' _ _ h; cases h
  | succ n ih =>
    intro s p s' hk hsafe h x
    rw [deleteExpr_succ] at h
    obtain ⟨s1, h1, rfl⟩ := Option.map_eq_some'.mp h
    rw [hk] at h1
    have hb := destructorBody_crossing hr ih hk hsafe h1 x
    have hc : cross s (s1.emit (Event.reclaim p)) x = cross s s1 x := by
      unfold cross; simp
    rw [emit_reclaims, hb, hc]
    by_cases hxp : x = p
    · subst hxp; simp; omega
    · have hpx : ¬ p = x := fun e => hxp e.symm
      simp [hxp, hpx]

/-! ### Decrements are paid for by reclaimed parents -/

theorem sum_range_point (n b : Nat) (v : Int) :
    ((List.range n).map fun a => if a = b then v else 0).sum = if b < n then v else 0 := by
  induction n with
  | zero => simp
  | succ m ih =>
    rw [List.range_succ, List.map_append, List.sum_append, ih]
    by_cases h1 : b < m
    · have h2 : ¬ m = b := by omega
      have h3 : b < m + 1 := by omega
      simp [h1, h2, h3]
    · by_cases h2 : m = b
      · subst h2; simp
      · have h3 : ¬ b < m + 1 := by omega
        simp [h1, h2, h3]

theorem edgesReleased_self (k : Nat → Payload) (n : Nat) (R : Nat → Nat) (x : Nat) :
    edgesReleased k n R R x = 0 := by
  unfold edgesReleased
  simp

theorem edgesReleased_trans (k : Nat → Payload) (n : Nat) (R R' R'' : Nat → Nat) (x : Nat) :
    edgesReleased k n R R'' x = edgesReleased k n R R' x + edgesReleased k n R' R'' x := by
  unfold edgesReleased
  rw [← List.sum_map_add]
  congr 1
  apply List.map_congr_left
  intro a _
  ring

theorem edgesReleased_congr (k : Nat → Payload) (n : Nat) {R R' S S' : Nat → Nat} (x : Nat)
    (h1 : ∀ a, S a = R a) (h2 : ∀ a, S' a = R' a) :
    edgesReleased k n S S' x = edgesReleased k n R R' x := by
  have e1 : S = R := funext h1
  have e2 : S' = R' := funext h2
  rw [e1, e2]

theorem edgesReleased_emit (k : Nat → Payload) (n : Nat) (s : Heap) (p x : Nat) (hp : p < n) :
    edgesReleased k n s.reclaims (s.emit (Event.reclaim p)).reclaims x =
      ((k p).children.count x : Int) := by
  unfold edgesReleased
  have : ∀ a ∈ List.range n,
      (((s.emit (Event.reclaim p)).reclaims a : Int) - (s.reclaims a : Int)) *
        ((k a).children.count x : Int) =
      if a = p then ((k p).children.count x : Int) else 0 := by
    intro a _
    rw [emit_reclaims]
    by_cases hap : a = p
    · subst hap; simp
    · have hpa : ¬ p = a := fun e => hap e.symm
      simp [hap, hpa]
  rw [List.map_congr_left this, sum_range_point, if_pos hp]

section Paid

variable {k : Nat → Payload} {N : Nat} {del : Heap → Nat → Option Heap}

theorem testAndDelete_paid (hdel : PaidLaw k N del) {s s' : Heap} {c : Nat}
    (hk : s.kind = k) (hfin : ∀ a, Reach k c a → a < N)
    (h : testAndDelete del s c = some s') (x : Nat) :
    (s'.decreases x : Int) - (s.decreases x : Int) =
      edgesReleased k N s.reclaims s'.reclaims x := by
  unfold testAndDelete at h
  split at h
  · have := hdel _ c s' (by simpa using hk) hfin h x
    rw [zeroCounter_decreases] at this
    rw [this]
    exact edgesReleased_congr k N x (fun a => zeroCounter_reclaims s c a) (fun _ => rfl)
  · cases h
    rw [zeroCounter_decreases,
      edgesReleased_congr k N x (fun _ => rfl) (fun a => zeroCounter_reclaims s c a),
      edgesReleased_self]
    omega

theorem deleteAllSubtrees_paid (hdel : PaidLaw k N del)
    (hev : ∀ s c s', del s c = some s' → Evolves s s') :
    ∀ (l : List Nat) (s s' : Heap), s.kind = k → (∀ c ∈ l, ∀ a, Reach k c a → a < N) →
      deleteAllSubtrees del s l = some s' →
      ∀ x, (s'.decreases x : Int) - (s.decreases x : Int) =
        (l.count x : Int) + edgesReleased k N s.reclaims s'.reclaims x := by
  intro l
  induction l with
  | nil =>
    intro s s' _ _ h x
    cases h
    rw [edgesReleased_self]; simp
  | cons c t ih =>
    intro s s' hk hfin h x
    rw [deleteAllSubtrees_cons] at h
    obtain ⟨s2, h2, h3⟩ := Option.bind_eq_some.mp h
    have hk2 : s2.kind = k := by
      rw [(testAndDelete_evolves hev h2).1]; simpa using hk
    have h1 := testAndDelete_paid hdel (s := decreaseCounter s c) (by simpa using hk)
      (hfin c (List.mem_cons_self c t)) h2 x
    have h4 := ih s2 s' hk2 (fun d hd => hfin d (List.mem_cons_of_mem c hd)) h3 x
    rw [decreaseCounter_decreases,
      edgesReleased_congr k N x (fun a => decreaseCounter_reclaims s c a) (fun _ => rfl)] at h1
    rw [edgesReleased_trans k N s.reclaims s2.reclaims s'.reclaims x, List.count_cons]
    by_cases hcx : c = x
    · subst hcx
      simp only [if_true, beq_self_eq_true] at h1 ⊢
      push_cast at h1 ⊢
      omega
    · have hb : (c == x) = false := by simpa using hcx
      simp only [hcx, hb, if_false, Bool.false_eq_true] at h1 ⊢
      push_cast at h1 ⊢
      omega

theorem ComparisonNode.destructor_paid (hdel : PaidLaw k N del)
    (hev : ∀ s c s', del s c = some s' → Evolves s s') {s s' : Heap} {l r : Nat}
    (hk : s.kind = k) (hl : ∀ a, Reach k l a → a < N) (hr : ∀ a, Reach k r a → a < N)
    (h : ComparisonNode.destructor del s l r = some s') (x : Nat) :
    (s'.decreases x : Int) - (s.decreases x : Int) =
      ([l, r].count x : Int) + edgesReleased k N s.reclaims s'.reclaims x := by
  rw [ComparisonNode.destructor_eq] at h
  obtain ⟨s3, h3, h4⟩ := Option.bind_eq_some.mp h
  have hk2 : (decreaseCounter (decreaseCounter s l) r).kind = k := by simpa using hk
  have hk3 : s3.kind = k := (testAndDelete_evolves hev h3).1.trans hk2
  have h1 := testAndDelete_paid hdel hk2 hl h3 x
  have h2 := testAndDelete_paid hdel hk3 hr h4 x
  rw [decreaseCounter_decreases, decreaseCounter_decreases,
    edgesReleased_congr k N x
      (fun a => (decreaseCounter_reclaims _ r a).trans (decreaseCounter_reclaims s l a))
      (fun _ => rfl)] at h1
  rw [edgesReleased_trans k N s.reclaims s3.reclaims s'.reclaims x, count_pair]
  push_cast at h1 ⊢
  omega

theorem destructorBody_paid (hdel : PaidLaw k N del)
    (hev : ∀ s c s', del s c = some s' → Evolves s s') {s s' : Heap} {p : Nat}
    (hk : s.kind = k) (hfin : ∀ c ∈ (k p).children, ∀ a, Reach k c a → a < N)
    (h : destructorBody del s (k p) = some s') (x : Nat) :
    (s'.decreases x : Int) - (s.decreases x : Int) =
      ((k p).children.count x : Int) + edgesReleased k N s.reclaims s'.reclaims x := by
  cases hkp : k p with
  | IntLiteral v => rw [hkp] at h; cases h; rw [edgesReleased_self]; simp [Payload.children]
  | VarUse v => rw [hkp] at h; cases h; rw [edgesReleased_self]; simp [Payload.children]
  | Comparison o l r =>
    rw [hkp] at h hfin
    exact ComparisonNode.destructor_paid hdel hev hk (hfin l (by simp [Payload.children]))
      (hfin r (by simp [Payload.children])) h x
  | Arithmetic o l =>
    rw [hkp] at h hfin
    exact deleteAllSubtrees_paid hdel hev l s s' hk hfin h x
  | Call o l =>
    rw [hkp] at h hfin
    exact deleteAllSubtrees_paid hdel hev l s s' hk hfin h x

end Paid

/-- Every decrement made during `delete p` is one edge out of a node that the
`delete` reclaimed: the destructor of a reclaimed node decrements each of its
child slots once. -/
theorem deleteExpr_paid (k : Nat → Payload) (N : Nat) :
    ∀ fuel : Nat, PaidLaw k N (deleteExpr fuel) := by
  intro fuel
  induction fuel with
  | zero => intro s c s' _ _ h; cases h
  | succ n ih =>
    intro s p s' hk hfin h x
    rw [deleteExpr_succ] at h
    obtain ⟨s1, h1, rfl⟩ := Option.map_eq_some'.mp h
    rw [hk] at h1
    have hb := destructorBody_paid ih (deleteExpr_evolves n) hk
      (fun c hc a ha => hfin a (Reach.head_child hc ha)) h1 x
    have hp : p < N := hfin p Relation.ReflTransGen.refl
    have hd : (s1.emit (Event.reclaim p)).decreases x = s1.decreases x := by simp
    rw [edgesReleased_trans k N s.reclaims s1.reclaims _ x, edgesReleased_emit k N s1 p x hp, hd]
    omega

/-! ### No zero test on a reclaimed node -/

theorem staleTestsFrom_append_singleton (e : Event) :
    ∀ (tr seen : List Event), staleTestsFrom seen (tr ++ [e]) =
      staleTestsFrom seen tr + staleWeight (seen ++ tr) e := by
  intro tr
  induction tr with
  | nil => intro seen; simp [staleTestsFrom]
  | cons d t ih =>
    intro seen
    rw [List.cons_append, staleTestsFrom, ih, staleTestsFrom]
    have : seen ++ [d] ++ t = seen ++ d :: t := by simp
    rw [this]
    omega

theorem emit_staleTests (s : Heap) (e : Event) :
    (s.emit e).staleTests = s.staleTests + staleWeight s.trace e := by
  unfold Heap.staleTests
  rw [emit_trace, staleTestsFrom_append_singleton]
  simp

@[simp] theorem decreaseCounter_staleTests (s : Heap) (a : Nat) :
    (decreaseCounter s a).staleTests = s.staleTests := by
  have := emit_staleTests s (Event.decrease a)
  simpa [Heap.staleTests, Heap.emit, staleWeight] using this

@[simp] theorem emit_reclaim_staleTests (s : Heap) (a : Nat) :
    (s.emit (Event.reclaim a)).staleTests = s.staleTests := by
  rw [emit_staleTests]; rfl

theorem staleWeight_zeroTest (s : Heap) (a : Nat) :
    staleWeight s.trace (Event.zeroTest a) = if 0 < s.reclaims a then 1 else 0 := by
  simp [staleWeight, Heap.reclaims, List.count_pos_iff]

theorem zeroCounter_staleTests (s : Heap) (a : Nat) :
    (zeroCounter s a).2.staleTests = s.staleTests + (if 0 < s.reclaims a then 1 else 0) := by
  rw [zeroCounter_snd]
  split
  · rw [emit_staleTests, emit_staleTests, staleWeight_zeroTest]; rfl
  · rw [emit_staleTests, staleWeight_zeroTest]

theorem FreedAtZero.mono {G H : Nat → Prop} {s : Heap} (h : FreedAtZero G s)
    (hsub : ∀ x, H x → G x) : FreedAtZero H s :=
  fun x hx => h x (hsub x hx)

theorem FreedAtZero.step {G : Nat → Prop} {s t : Heap} (h : FreedAtZero G s)
    (hev : Evolves s t) (e : Nat → Nat) (he : ∀ x, 0 < e x → t.counter x ≤ 0)
    (hlaw : ∀ x, t.reclaims x = s.reclaims x + e x + cross s t x) : FreedAtZero G t := by
  intro x hx hpos
  have hm := hev.2.2.1 x
  have hl := hlaw x
  by_cases h1 : 0 < s.reclaims x
  · have := h x hx h1; omega
  · by_cases h2 : 0 < e x
    · exact he x h2
    · have hc : 0 < cross s t x := by omega
      unfold cross at hc
      split_ifs at hc with h3
      · exact h3.2
      · exact absurd hc (lt_irrefl 0)

section Stale

variable {k : Nat → Payload} {rank : Nat → Nat} {n : Nat}

theorem testAndDelete_noStale (hdel : StaleLaw k (deleteExpr n)) {s s' : Heap} {c : Nat}
    (hk : s.kind = k) (hsafe : SafeBelow k c)
    (h : testAndDelete (deleteExpr n) s c = some s') (hfresh : s.reclaims c = 0)
    (hnn : ∀ x, Reach k c x → 0 ≤ s'.counter x)
    (hJ : FreedAtZero (fun x => Reach k c x) s) :
    s'.staleTests = s.staleTests := by
  have hz : (zeroCounter s c).2.staleTests = s.staleTests := by
    rw [zeroCounter_staleTests, hfresh]; simp
  unfold testAndDelete at h
  split at h
  · rw [← hz]
    refine hdel _ c s' (by simpa using hk) hsafe h hnn ?_
    intro x hx hpos
    rw [zeroCounter_reclaims] at hpos
    rw [zeroCounter_counter]
    exact hJ x hx hpos
  · cases h; exact hz

/-- A node of `G` about to be decremented has not been reclaimed, when the run
ends without a negative counter in `G`. -/
theorem fresh_of_final_nonneg {G : Nat → Prop} {s t u : Heap} {c : Nat}
    (hJ : FreedAtZero G s) (hc : G c) (ht : t.counter c ≤ s.counter c - 1)
    (hev : Evolves t u) (hnn : 0 ≤ u.counter c) : s.reclaims c = 0 := by
  by_contra hne
  have := hJ c hc (by omega)
  have := hev.2.2.1 c
  omega

theorem deleteAllSubtrees_noStale (hr : Ranked k rank) (hdel : StaleLaw k (deleteExpr n))
    (G : Nat → Prop) :
    ∀ (l : List Nat) (s s' : Heap), s.kind = k →
      (∀ c ∈ l, SafeBelow k c) → (∀ c ∈ l, ∀ x, Reach k c x → G x) →
      deleteAllSubtrees (deleteExpr n) s l = some s' →
      (∀ x, G x → 0 ≤ s'.counter x) → FreedAtZero G s →
      s'.staleTests = s.staleTests := by
  intro l
  induction l with
  | nil => intro s s' _ _ _ h _ _; cases h; rfl
  | cons c t ih =>
    intro s s' hk hsafe hG h hnn hJ
    rw [deleteAllSubtrees_cons] at h
    obtain ⟨s2, h2, h3⟩ := Option.bind_eq_some.mp h
    have hsc := hsafe c (List.mem_cons_self c t)
    have hGc := hG c (List.mem_cons_self c t)
    have hev1 : Evolves s (decreaseCounter s c) := evolves_decreaseCounter s c
    have hev12 : Evolves (decreaseCounter s c) s2 :=
      testAndDelete_evolves (deleteExpr_evolves n) h2
    have hev2 : Evolves s s2 := hev1.trans hev12
    have hev3 : Evolves s2 s' := deleteAllSubtrees_evolves (deleteExpr_evolves n) _ _ _ h3
    have hfresh : s.reclaims c = 0 :=
      fresh_of_final_nonneg hJ (hGc c Relation.ReflTransGen.refl)
        (by rw [decreaseCounter_counter_same]) (hev12.trans hev3)
        (hnn c (hGc c Relation.ReflTransGen.refl))
    have hJ1 : FreedAtZero (fun x => Reach k c x) (decreaseCounter s c) := by
      intro x hx hpos
      rw [decreaseCounter_reclaims] at hpos
      have := hJ x (hGc x hx) hpos
      have := hev1.2.2.1 x
      omega
    have hst2 : s2.staleTests = s.staleTests := by
      rw [testAndDelete_noStale hdel (by simpa using hk) hsc h2 (by simpa using hfresh)
        (fun x hx => (hnn x (hGc x hx)).trans (hev3.2.2.1 x)) hJ1]
      simp
    have hJ2 : FreedAtZero G s2 :=
      hJ.step hev2 (fun _ => 0) (fun x hx => absurd hx (lt_irrefl 0))
        (fun x => by
          have := slot_crossing hr (deleteExpr_crossing hr n) hk hsc h2 x
          simpa using this)
    rw [ih s2 s' (hev2.1.trans hk) (fun d hd => hsafe d (List.mem_cons_of_mem c hd))
      (fun d hd => hG d (List.mem_cons_of_mem c hd)) h3 hnn hJ2, hst2]

end Stale

theorem ComparisonNode.destructor_noStale {k : Nat → Payload} {rank : Nat → Nat} {n : Nat}
    (hr : Ranked k rank) (hdel : StaleLaw k (deleteExpr n)) (G : Nat → Prop)
    {s s' : Heap} {l r : Nat} (hk : s.kind = k)
    (hsl : SafeBelow k l) (hsr : SafeBelow k r) (hne : l ≠ r) (hlr : ¬ Reach k l r)
    (hGl : ∀ x, Reach k l x → G x) (hGr : ∀ x, Reach k r x → G x)
    (h : ComparisonNode.destructor (deleteExpr n) s l r = some s')
    (hnn : ∀ x, G x → 0 ≤ s'.counter x) (hJ : FreedAtZero G s) :
    s'.staleTests = s.staleTests := by
  rw [ComparisonNode.destructor_eq] at h
  obtain ⟨s3, h3, h4⟩ := Option.bind_eq_some.mp h
  have hrl : r ≠ l := fun e => hne e.symm
  have hk2 : (decreaseCounter (decreaseCounter s l) r).kind = k := by simpa using hk
  have he2 : Evolves s (decreaseCounter (decreaseCounter s l) r) :=
    (evolves_decreaseCounter s l).trans (evolves_decreaseCounter _ r)
  have he3 := testAndDelete_evolves (deleteExpr_evolves n) h3
  have he4 := testAndDelete_evolves (deleteExpr_evolves n) h4
  have hk3 : s3.kind = k := he3.1.trans hk2
  have hfl : s.reclaims l = 0 :=
    fresh_of_final_nonneg hJ (hGl l Relation.ReflTransGen.refl)
      (by rw [decreaseCounter_counter_other _ _ _ hne, decreaseCounter_counter_same])
      (he3.trans he4) (hnn l (hGl l Relation.ReflTransGen.refl))
  have hfr : s.reclaims r = 0 :=
    fresh_of_final_nonneg hJ (hGr r Relation.ReflTransGen.refl)
      (by rw [decreaseCounter_counter_same, decreaseCounter_counter_other _ _ _ hrl])
      (he3.trans he4) (hnn r (hGr r Relation.ReflTransGen.refl))
  have hJ2 : FreedAtZero G (decreaseCounter (decreaseCounter s l) r) := by
    intro x hx hpos
    rw [decreaseCounter_reclaims, decreaseCounter_reclaims] at hpos
    have := hJ x hx hpos
    have := he2.2.2.1 x
    omega
  have hst3 : s3.staleTests = s.staleTests := by
    rw [testAndDelete_noStale hdel hk2 hsl h3 (by simpa using hfl)
      (fun x hx => (hnn x (hGl x hx)).trans (he4.2.2.1 x)) (hJ2.mono hGl)]
    simp
  have hJ3 : FreedAtZero G s3 :=
    hJ2.step he3 (fun x => if x = l ∧
        (decreaseCounter (decreaseCounter s l) r).counter l = 0 then 1 else 0)
      (fun x hx => by
        simp only at hx
        split_ifs at hx with hc
        · rw [hc.1]
          have := he3.2.2.1 l
          omega
        · exact absurd hx (lt_irrefl 0))
      (fun x => testAndDelete_crossing (deleteExpr_crossing hr n) hk2 hsl h3 x)
  have hf3 : s3.reclaims r = 0 := by
    have := (testAndDelete_untouched (x := r) hk2 (not_child_of_unreachable hlr) h3).2
    rw [this, decreaseCounter_reclaims, decreaseCounter_reclaims, hfr]
    simp [hne]
  rw [testAndDelete_noStale hdel hk3 hsr h4 hf3 (fun x hx => hnn x (hGr x hx)) (hJ3.mono hGr),
    hst3]

theorem destructorBody_noStale {k : Nat → Payload} {rank : Nat → Nat} {n : Nat}
    (hr : Ranked k rank) (hdel : StaleLaw k (deleteExpr n)) {s s' : Heap} {p : Nat}
    (hk : s.kind = k) (hsafe : SafeBelow k p)
    (h : destructorBody (deleteExpr n) s (k p) = some s')
    (hnn : ∀ x, Reach k p x → 0 ≤ s'.counter x)
    (hJ : FreedAtZero (fun x => Reach k p x) s) :
    s'.staleTests = s.staleTests := by
  have hchild : ∀ c ∈ (k p).children, SafeBelow k c := fun c hc => hsafe.of_child hc
  have hG : ∀ c ∈ (k p).children, ∀ x, Reach k c x → Reach k p x :=
    fun c hc x hx => Reach.head_child hc hx
  cases hkp : k p with
  | IntLiteral v => rw [hkp] at h; cases h; rfl
  | VarUse v => rw [hkp] at h; cases h; rfl
  | Comparison o l r =>
    rw [hkp] at h hchild hG
    obtain ⟨hne, hlr⟩ := hsafe p o l r Relation.ReflTransGen.refl hkp
    exact ComparisonNode.destructor_noStale hr hdel (fun x => Reach k p x) hk
      (hchild l (by simp [Payload.children])) (hchild r (by simp [Payload.children])) hne hlr
      (hG l (by simp [Payload.children])) (hG r (by simp [Payload.children])) h hnn hJ
  | Arithmetic o l =>
    rw [hkp] at h hchild hG
    exact deleteAllSubtrees_noStale hr hdel (fun x => Reach k p x) l s s' hk hchild hG h hnn hJ
  | Call o l =>
    rw [hkp] at h hchild hG
    exact deleteAllSubtrees_noStale hr hdel (fun x => Reach k p x) l s s' hk hchild hG h hnn hJ

/-- On an acyclic graph whose comparison nodes below `p` are safe: if
`delete p` ends without a negative counter below `p`, and no live counter
below `p` belonged to a reclaimed node at the start, then no zero test of the
cascade was made on a node that had already been reclaimed. -/
theorem deleteExpr_noStale {k : Nat → Payload} {rank : Nat → Nat} (hr : Ranked k rank) :
    ∀ fuel : Nat, StaleLaw k (deleteExpr fuel) := by
  intro fuel
  induction fuel with
  | zero => intro s c s' _ _ h; cases h
  | succ n ih =>
    intro s p s' hk hsafe h hnn hJ
    rw [deleteExpr_succ] at h
    obtain ⟨s1, h1, rfl⟩ := Option.map_eq_some'.mp h
    rw [hk] at h1
    rw [emit_reclaim_staleTests]
    exact destructorBody_noStale hr ih hk hsafe h1 (fun x hx => by simpa using hnn x hx) hJ

/-! ### Release of a root without outside references -/

theorem le_sum_range_map (f : Nat → Nat) (n b : Nat) (hb : b < n) :
    f b ≤ ((List.range n).map f).sum := by
  induction n with
  | zero => omega
  | succ m ih =>
    rw [List.range_succ, List.map_append, List.sum_append]
    by_cases h : b < m
    · have := ih h; omega
    · have hbm : b = m := by omega
      subst hbm; simp

theorem inDegree_pos {s : Heap} {b x : Nat} (hb : b < s.size)
    (hx : x ∈ (s.kind b).children) : 0 < inDegree s x := by
  have h1 : 0 < (s.kind b).children.count x := List.count_pos_iff.mpr hx
  have h2 := le_sum_range_map (fun p => (s.kind p).children.count x) s.size b hb
  unfold inDegree
  exact lt_of_lt_of_le h1 h2

/-- When every allocated parent of `x` was reclaimed exactly once between `R`
and `R'`, the released edges into `x` are all its incoming edges. -/
theorem edgesReleased_eq_inDegree (s : Heap) (R R' : Nat → Nat) (x : Nat)
    (h : ∀ a, a < s.size → x ∈ (s.kind a).children → R' a = R a + 1) :
    edgesReleased s.kind s.size R R' x = (inDegree s x : Int) := by
  unfold edgesReleased inDegree
  rw [Nat.cast_list_sum, List.map_map]
  congr 1
  apply List.map_congr_left
  intro a ha
  have han : a < s.size := List.mem_range.mp ha
  simp only [Function.comp]
  by_cases hm : x ∈ (s.kind a).children
  · rw [h a han hm]; push_cast; ring
  · rw [List.count_eq_zero_of_not_mem hm]; simp

theorem Reach.exists_parent {k : Nat → Payload} {p x : Nat} (h : Reach k p x) (hne : x ≠ p) :
    ∃ b, Reach k p b ∧ x ∈ (k b).children := by
  rcases Relation.ReflTransGen.cases_tail h with heq | ⟨b, hb, hbx⟩
  · exact absurd heq hne
  · exact ⟨b, hb, hbx⟩

/-- Releasing a root of an acyclic graph whose counters are the in-degrees,
into whose reachable part no outside node points, and whose comparison nodes
are safe: the release returns, every reachable node is reclaimed exactly one
more time and ends with a counter that is not negative, and no zero test is
made on a reclaimed node. -/
theorem release_root_exactly_once (s : Heap) (rank : Nat → Nat) (root fuel : Nat)
    (hacyc : Ranked s.kind rank)
    (hfin : ∀ a, Reach s.kind root a → a < s.size)
    (hmatch : CountersMatch s)
    (hext : ∀ a c, c ∈ (s.kind a).children → Reach s.kind root c → Reach s.kind root a)
    (hsafe : SafeBelow s.kind root)
    (hfresh : ∀ x, Reach s.kind root x → s.reclaims x = 0)
    (hfuel : rank root < fuel) :
    ∃ s', deleteExpr fuel s root = some s' ∧
      (∀ x, Reach s.kind root x → s'.reclaims x = 1 ∧ 0 ≤ s'.counter x) ∧
      s'.staleTests = s.staleTests := by
  obtain ⟨s', h⟩ := deleteExpr_total hacyc fuel s root rfl hfuel
  have hev : Evolves s s' := deleteExpr_evolves _ _ _ _ h
  have hcl := deleteExpr_crossing hacyc fuel s root s' rfl hsafe h
  have hpaid := deleteExpr_paid s.kind s.size fuel s root s' rfl hfin h
  have hroot := deleteExpr_untouched (x := root) rfl (not_child_of_descendant hacyc root) h
  have key : ∀ m x, Reach s.kind root x → rank root - rank x = m →
      s'.reclaims x = s.reclaims x + 1 ∧ 0 ≤ s'.counter x := by
    intro m
    induction m using Nat.strong_induction_on with
    | _ m ih =>
      intro x hx hm
      by_cases hxr : x = root
      · subst hxr
        have hc := cross_of_counter_eq hroot.1
        have hl := hcl x
        rw [hc] at hl
        refine ⟨by simpa using hl, ?_⟩
        rw [hroot.1, hmatch x (hfin x hx)]
        exact Int.natCast_nonneg _
      · have hpar : ∀ a, a < s.size → x ∈ (s.kind a).children →
            s'.reclaims a = s.reclaims a + 1 := by
          intro a _ hmem
          have ha : Reach s.kind root a := hext a x hmem hx
          have h1 := hacyc a x hmem
          have h2 := ha.rank_le hacyc
          exact (ih (rank root - rank a) (by omega) a ha rfl).1
        have hsum := edgesReleased_eq_inDegree s s.reclaims s'.reclaims x hpar
        have hdec := hev.2.2.2.1 x
        have hp := hpaid x
        have hcx := hmatch x (hfin x hx)
        obtain ⟨b, hb, hbx⟩ := hx.exists_parent hxr
        have hpos := inDegree_pos (hfin b hb) hbx
        have hfinal : s'.counter x = 0 := by omega
        have hcross : cross s s' x = 1 := by
          unfold cross
          rw [if_pos ⟨by omega, by omega⟩]
        have hl := hcl x
        rw [hcross] at hl
        simp only [hxr, if_false] at hl
        exact ⟨by omega, by omega⟩
  have hall : ∀ x, Reach s.kind root x → s'.reclaims x = 1 ∧ 0 ≤ s'.counter x := by
    intro x hx
    have := key _ x hx rfl
    rw [hfresh x hx] at this
    exact this
  refine ⟨s', h, hall, ?_⟩
  refine deleteExpr_noStale hacyc fuel s root s' rfl hsafe h (fun x hx => (hall x hx).2) ?_
  intro x hx hpos
  rw [hfresh x hx] at hpos
  exact absurd hpos (lt_irrefl 0)

/-- A graph without comparison nodes below `p` is safe below `p`. -/
theorem safeBelow_of_no_comparison {k : Nat → Payload} {p : Nat}
    (h : ∀ a o l r, Reach k p a → k a ≠ Payload.Comparison o l r) : SafeBelow k p :=
  fun a o l r ha hk => absurd hk (h a o l r ha)

theorem scenarioSafeComparison_kind (a : Nat) :
    scenarioSafeComparison.kind a =
      if a = 2 then Payload.Comparison "<" 0 1
      else if a = 1 then Payload.Arithmetic "+" [0, 0]
      else if a = 0 then Payload.VarUse "x"
      else Payload.IntLiteral 0 := by
  simp only [scenarioSafeComparison, ArithmeticNode, ComparisonNode, VarUseNode,
    incrementCounterList, increaseCounter, alloc, ExprNode, Heap.empty, Function.update_apply]

theorem scenarioSafeComparison_ranked : Ranked scenarioSafeComparison.kind id := by
  intro a c hc
  rw [scenarioSafeComparison_kind] at hc
  split_ifs at hc with h2 h1 h0 <;> simp [Payload.children] at hc <;> simp only [id] <;> omega

theorem scenarioSafeComparison_closed (a c : Nat)
    (hc : c ∈ (scenarioSafeComparison.kind a).children)
    (_ : Reach scenarioSafeComparison.kind 2 c) : Reach scenarioSafeComparison.kind 2 a := by
  rw [scenarioSafeComparison_kind] at hc
  split_ifs at hc with h2 h1 h0
  · rw [h2]; exact Relation.ReflTransGen.refl
  · rw [h1]
    refine Relation.ReflTransGen.single ?_
    show 1 ∈ (scenarioSafeComparison.kind 2).children
    decide
  · simp [Payload.children] at hc
  · simp [Payload.children] at hc

theorem scenarioSafeComparison_safe : SafeBelow scenarioSafeComparison.kind 2 := by
  intro a o l r _ hk
  rw [scenarioSafeComparison_kind] at hk
  split_ifs at hk with h2 h1 h0
  · injection hk with _ hl hr'
    subst hl hr'
    refine ⟨by decide, fun h => ?_⟩
    have := h.rank_le scenarioSafeComparison_ranked
    simp at this

theorem scenarioSafeComparison_fresh (x : Nat) : scenarioSafeComparison.reclaims x = 0 := by
  have ht : scenarioSafeComparison.trace =
      [Event.increase 0, Event.increase 0, Event.increase 0, Event.increase 1] := by decide
  rw [Heap.reclaims, ht]
  simp [List.count_cons]

/-! ### Access to returned storage -/

@[simp] theorem overwriteFreed_counter_same (s : Heap) (a : Nat) (v : Int) :
    (overwriteFreed s a v).counter a = v := by
  simp [overwriteFreed]

@[simp] theorem overwriteFreed_trace (s : Heap) (a : Nat) (v : Int) :
    (overwriteFreed s a v).trace = s.trace := rfl

/-- A zero test on a cell whose storage was returned and now reads `v`: the
test is made on a reclaimed node, it answers true exactly when `v = 0`, and it
writes `Negative counter` exactly when `v < 0`. -/
theorem zeroCounter_overwriteFreed (s : Heap) (a : Nat) (v : Int) (h : 0 < s.reclaims a) :
    ((zeroCounter (overwriteFreed s a v) a).1 = true ↔ v = 0) ∧
    (zeroCounter (overwriteFreed s a v) a).2.negatives =
      s.negatives + (if v < 0 then 1 else 0) ∧
    (zeroCounter (overwriteFreed s a v) a).2.staleTests = s.staleTests + 1 := by
  refine ⟨?_, ?_, ?_⟩
  · rw [zeroCounter_fst]; simp
  · rw [zeroCounter_negatives]; simp [Heap.negatives]
  · rw [zeroCounter_staleTests]
    have : (overwriteFreed s a v).reclaims a = s.reclaims a := rfl
    rw [this, if_pos h]
    rfl

/-- The fragment `if (a->zeroCounter() == true) delete a;` on a cell whose
storage was returned and now reads `v`: `delete a` is executed exactly when
`v = 0`. -/
theorem testAndDelete_overwriteFreed (del : Heap → Nat → Option Heap) (s : Heap) (a : Nat)
    (v : Int) :
    testAndDelete del (overwriteFreed s a v) a =
      if v = 0 then del (zeroCounter (overwriteFreed s a v) a).2 a
      else some (zeroCounter (overwriteFreed s a v) a).2 := by
  unfold testAndDelete
  rw [zeroCounter_fst]
  simp

/-! ### Survival of a node with a parent outside the released part -/

theorem sum_range_le_of_point (f g : Nat → Int) (n q : Nat) (hq : q < n)
    (hle : ∀ a, a < n → f a ≤ g a) (hfq : f q = 0) :
    ((List.range n).map f).sum + g q ≤ ((List.range n).map g).sum := by
  have h1 : ((List.range n).map fun a => f a + (if a = q then g q else 0)).sum =
      ((List.range n).map f).sum + g q := by
    rw [List.sum_map_add, sum_range_point, if_pos hq]
  rw [← h1]
  apply List.sum_le_sum
  intro a ha
  have han : a < n := List.mem_range.mp ha
  by_cases haq : a = q
  · subst haq; simp [hfq]
  · simp [haq]; exact hle a han

/-- On a graph whose comparison nodes below `root` are safe and whose counters
are the in-degrees, a node that has a parent which is not reachable from
`root` is not reclaimed by `delete root` and keeps a positive counter. -/
theorem outside_parent_survives (s : Heap) (rank : Nat → Nat) (root fuel y q : Nat)
    (hacyc : Ranked s.kind rank)
    (hfin : ∀ a, Reach s.kind root a → a < s.size)
    (hmatch : CountersMatch s) (hsafe : SafeBelow s.kind root)
    (hzero : s.counter root = 0)
    (hq : q < s.size) (hy : y < s.size) (hqy : y ∈ (s.kind q).children)
    (hnq : ¬ Reach s.kind root q) (hfuel : rank root < fuel) :
    ∃ s', deleteExpr fuel s root = some s' ∧ s'.reclaims y = s.reclaims y ∧
      0 < s'.counter y := by
  obtain ⟨s', h⟩ := deleteExpr_total hacyc fuel s root rfl hfuel
  have hev : Evolves s s' := deleteExpr_evolves _ _ _ _ h
  have hcl := deleteExpr_crossing hacyc fuel s root s' rfl hsafe h
  have hpaid := deleteExpr_paid s.kind s.size fuel s root s' rfl hfin h y
  have hroot := deleteExpr_untouched (x := root) rfl (not_child_of_descendant hacyc root) h
  have hqun := deleteExpr_untouched (x := q) rfl (not_child_of_unreachable hnq) h
  have hrq : ¬ root = q := fun e => hnq (e ▸ Relation.ReflTransGen.refl)
  have hposy := inDegree_pos hq hqy
  have hyr : y ≠ root := by
    intro e
    have := hmatch y hy
    rw [e, hzero] at this
    rw [e] at hposy
    omega
  have hone : ∀ a, (s'.reclaims a : Int) - (s.reclaims a : Int) ≤ 1 := by
    intro a
    have hl := hcl a
    by_cases har : a = root
    · subst har
      rw [cross_of_counter_eq hroot.1] at hl
      simp at hl; omega
    · have hc : cross s s' a ≤ 1 := by
        unfold cross; split_ifs <;> omega
      simp only [har, if_false] at hl
      omega
  have hsum : edgesReleased s.kind s.size s.reclaims s'.reclaims y +
      ((s.kind q).children.count y : Int) ≤ (inDegree s y : Int) := by
    unfold edgesReleased inDegree
    rw [Nat.cast_list_sum, List.map_map]
    refine sum_range_le_of_point _ _ s.size q hq (fun a _ => ?_) ?_
    · simp only [Function.comp]
      have h1 := hone a
      have h2 : (0 : Int) ≤ ((s.kind a).children.count y : Int) := Int.natCast_nonneg _
      nlinarith
    · rw [hqun.2]; simp [hrq]
  have hcq : 0 < (s.kind q).children.count y := List.count_pos_iff.mpr hqy
  have hdec := hev.2.2.2.1 y
  have hcy := hmatch y hy
  have hfinal : 0 < s'.counter y := by omega
  have hcross : cross s s' y = 0 := by
    unfold cross
    rw [if_neg (by omega)]
  have hl := hcl y
  rw [hcross] at hl
  simp only [hyr, if_false] at hl
  exact ⟨s', h, by omega, hfinal⟩

/-! ## The claims -/

/-- C1 (failing input): `x = IntLiteral(5); c = Comparison("<", x, x)`, built by
the constructors, every counter equal to the in-degree, every node reachable
from `c`.  In `~ComparisonNode` of `c`, after both decrements and
`if (left->zeroCounter()) delete left;` the node `x` has been reclaimed
(heap `s3`).  The next statement, `if (right->zeroCounter()) delete right;`,
tests `x` again: the test reads returned storage, and for every value `v`
that storage may hold, the test is a test of a reclaimed node and
`delete right` (a second delete of `x`) is executed exactly when `v = 0`. -/
theorem C1_second_delete_decided_by_freed_storage :
    scenarioSameChild.1 = 1 ∧ Closed scenarioSameChild.2 ∧ CountersMatch scenarioSameChild.2 ∧
    scenarioSameChild.2.kind 1 = Payload.Comparison "<" 0 0 ∧
    ComparisonNode.destructor (deleteExpr 1) scenarioSameChild.2 0 0 =
      ((testAndDelete (deleteExpr 1)
        (decreaseCounter (decreaseCounter scenarioSameChild.2 0) 0) 0).bind
          fun s3 => testAndDelete (deleteExpr 1) s3 0) ∧
    ∃ s3, testAndDelete (deleteExpr 1)
        (decreaseCounter (decreaseCounter scenarioSameChild.2 0) 0) 0 = some s3 ∧
      s3.trace = [Event.increase 0, Event.increase 0, Event.decrease 0, Event.decrease 0,
        Event.zeroTest 0, Event.reclaim 0] ∧
      s3.reclaims 0 = 1 ∧ s3.staleTests = 0 ∧
      ∀ v : Int,
        ((zeroCounter (overwriteFreed s3 0 v) 0).1 = true ↔ v = 0) ∧
        (zeroCounter (overwriteFreed s3 0 v) 0).2.staleTests = 1 ∧
        ∀ del : Heap → Nat → Option Heap,
          testAndDelete del (overwriteFreed s3 0 v) 0 =
            if v = 0 then del (zeroCounter (overwriteFreed s3 0 v) 0).2 0
            else some (zeroCounter (overwriteFreed s3 0 v) 0).2 := by
  refine ⟨by decide, by decide, by decide, by decide,
    ComparisonNode.destructor_eq _ _ _ _, _, rfl, by decide, by decide, by decide, fun v => ?_⟩
  have h := zeroCounter_overwriteFreed
    (((zeroCounter (decreaseCounter (decreaseCounter scenarioSameChild.2 0) 0) 0).2).emit
      (Event.reclaim 0)) 0 v (by decide)
  exact ⟨h.1, h.2.2, fun del => testAndDelete_overwriteFreed del _ 0 v⟩

/-- C3 (failing input): `y = IntLiteral(1); a = Arithmetic("+", [y]);
r = Comparison("<", a, a)`, built by the constructors from the empty heap,
then `r` deleted once.  In `~ComparisonNode` of `r`, after both decrements and
`if (left->zeroCounter()) delete left;` the nodes `y` and `a` have been
reclaimed, no counter has been negative and nothing has been reported (heap
`s3`).  The next statement calls `zeroCounter` on `a` again: it reads returned
storage, and for every value `v` that storage may hold it writes
`Negative counter` exactly when `v < 0` (and `delete right`, a second delete
of `a`, is executed exactly when `v = 0`). -/
theorem C3_freed_counter_read_as_negative :
    scenarioSharedOperand.1 = 2 ∧ Closed scenarioSharedOperand.2 ∧
    CountersMatch scenarioSharedOperand.2 ∧
    scenarioSharedOperand.2.kind 2 = Payload.Comparison "<" 1 1 ∧
    ComparisonNode.destructor (deleteExpr 2) scenarioSharedOperand.2 1 1 =
      ((testAndDelete (deleteExpr 2)
        (decreaseCounter (decreaseCounter scenarioSharedOperand.2 1) 1) 1).bind
          fun s3 => testAndDelete (deleteExpr 2) s3 1) ∧
    ∃ s3, testAndDelete (deleteExpr 2)
        (decreaseCounter (decreaseCounter scenarioSharedOperand.2 1) 1) 1 = some s3 ∧
      s3.trace = [Event.increase 0, Event.increase 1, Event.increase 1,
        Event.decrease 1, Event.decrease 1, Event.zeroTest 1,
        Event.decrease 0, Event.zeroTest 0, Event.reclaim 0, Event.reclaim 1] ∧
      s3.reclaims 1 = 1 ∧ s3.negatives = 0 ∧ s3.staleTests = 0 ∧
      (List.range 3).map s3.counter = [0, 0, 0] ∧
      ∀ v : Int,
        (zeroCounter (overwriteFreed s3 1 v) 1).2.negatives = (if v < 0 then 1 else 0) ∧
        ((zeroCounter (overwriteFreed s3 1 v) 1).1 = true ↔ v = 0) ∧
        (zeroCounter (overwriteFreed s3 1 v) 1).2.staleTests = 1 ∧
        ∀ del : Heap → Nat → Option Heap,
          testAndDelete del (overwriteFreed s3 1 v) 1 =
            if v = 0 then del (zeroCounter (overwriteFreed s3 1 v) 1).2 1
            else some (zeroCounter (overwriteFreed s3 1 v) 1).2 := by
  refine ⟨by decide, by decide, by decide, by decide,
    ComparisonNode.destructor_eq _ _ _ _, _, rfl, by decide, by decide, by decide, by decide,
    by decide, fun v => ?_⟩
  have key : ∀ s : Heap, 0 < s.reclaims 1 → s.negatives = 0 → s.staleTests = 0 →
      (zeroCounter (overwriteFreed s 1 v) 1).2.negatives = (if v < 0 then 1 else 0) ∧
      ((zeroCounter (overwriteFreed s 1 v) 1).1 = true ↔ v = 0) ∧
      (zeroCounter (overwriteFreed s 1 v) 1).2.staleTests = 1 ∧
      ∀ del : Heap → Nat → Option Heap,
        testAndDelete del (overwriteFreed s 1 v) 1 =
          if v = 0 then del (zeroCounter (overwriteFreed s 1 v) 1).2 1
          else some (zeroCounter (overwriteFreed s 1 v) 1).2 := by
    intro s h0 h1 h2
    have h := zeroCounter_overwriteFreed s 1 v h0
    rw [h1, h2] at h
    exact ⟨by simpa using h.2.1, h.1, by simpa using h.2.2,
      fun del => testAndDelete_overwriteFreed del s 1 v⟩
  exact key _ (by decide) (by decide) (by decide)

/-- C4: for each composite constructor and each node `n` that existed before
the call, the counter of `n` afterwards is its counter before plus the number
of times `n` occurs among the children; the constructor performs exactly one
`increaseCounter` per child slot, in slot order (so `Comparison(op, x, x)`
raises the counter of `x` by two). -/
theorem C4_construction_counts_edges (s : Heap) (op : String) (lhs rhs : Nat)
    (operands : List Nat) (n : Nat) (hn : n < s.size) :
    ((ComparisonNode s op lhs rhs).2.counter n = s.counter n + ([lhs, rhs].count n : Int) ∧
      (ComparisonNode s op lhs rhs).2.trace =
        s.trace ++ [Event.increase lhs, Event.increase rhs]) ∧
    ((ArithmeticNode s op operands).2.counter n = s.counter n + (operands.count n : Int) ∧
      (ArithmeticNode s op operands).2.trace = s.trace ++ operands.map Event.increase) ∧
    ((CallNode s op operands).2.counter n = s.counter n + (operands.count n : Int) ∧
      (CallNode s op operands).2.trace = s.trace ++ operands.map Event.increase) ∧
    (ComparisonNode s op n n).2.counter n = s.counter n + 2 := by
  have hne : n ≠ s.size := by omega
  have hcmp : ∀ l r : Nat, (ComparisonNode s op l r).2.counter n =
      s.counter n + ([l, r].count n : Int) := by
    intro l r
    simp only [ComparisonNode]
    rw [increaseCounter_counter, increaseCounter_counter, alloc_counter_old s _ hne, count_pair]
    by_cases h1 : n = l <;> by_cases h2 : n = r <;>
      simp [h1, h2, eq_comm] <;> omega
  refine ⟨⟨hcmp lhs rhs, ?_⟩, ⟨?_, ?_⟩, ⟨?_, ?_⟩, ?_⟩
  · simp [ComparisonNode]
  · simp only [ArithmeticNode]
    rw [incrementCounterList_counter, alloc_counter_old s _ hne]
  · simp only [ArithmeticNode]
    rw [incrementCounterList_trace, alloc_trace]
  · simp only [CallNode]
    rw [incrementCounterList_counter, alloc_counter_old s _ hne]
  · simp only [CallNode]
    rw [incrementCounterList_trace, alloc_trace]
  · rw [hcmp n n]; simp

/-- C4 (witness): on the heap with two fresh literals, `Comparison("<", x, x)`
over node 0 raises its counter by two. -/
theorem C4_construction_counts_edges_witness :
    0 < scenarioTwoLeaves.size ∧
    (ComparisonNode scenarioTwoLeaves "<" 0 0).2.counter 0 = scenarioTwoLeaves.counter 0 + 2 :=
  ⟨by decide, (C4_construction_counts_edges scenarioTwoLeaves "<" 0 1 [0, 1, 0] 0
    (by decide)).2.2.2⟩

/-- C5: node `x` has exactly two incoming edges, one from `p` and one from
`q`, its counter is 2, `p` has counter 0 and `q` is not reachable from `p`
(so `q` is not `p`), in an acyclic graph.  Deleting `p` returns, decrements `x` exactly
once (to 1) and does not reclaim `x`; deleting `q` afterwards returns, brings
the counter of `x` to 0 and reclaims `x` exactly once. -/
theorem C5_shared_child_outlives_first_parent (s : Heap) (rank : Nat → Nat) (x p q : Nat)
    (fuel1 fuel2 : Nat) (hacyc : Ranked s.kind rank)
    (hedges : ∀ a, (s.kind a).children.count x = if a = p ∨ a = q then 1 else 0)
    (hx : s.counter x = 2) (hp : s.counter p = 0) (hqp : ¬ Reach s.kind p q)
    (hf1 : rank p < fuel1) (hf2 : rank q < fuel2) :
    ∃ s1, deleteExpr fuel1 s p = some s1 ∧ s1.counter x = 1 ∧
      s1.decreases x = s.decreases x + 1 ∧ s1.reclaims x = s.reclaims x ∧
      ∃ s2, deleteExpr fuel2 s1 q = some s2 ∧ s2.counter x = 0 ∧
        s2.decreases x = s.decreases x + 2 ∧ s2.reclaims x = s.reclaims x + 1 := by
  have hnot : ∀ a, a ≠ p → a ≠ q → x ∉ (s.kind a).children := by
    intro a h1 h2
    have := hedges a
    rw [if_neg (by simp [h1, h2])] at this
    exact List.count_eq_zero.mp this
  obtain ⟨s1, h1⟩ := deleteExpr_total hacyc fuel1 s p rfl hf1
  have hev1 : Evolves s s1 := deleteExpr_evolves _ _ _ _ h1
  have hr1 := deleteExpr_single_edge hacyc (fun _ => False) rfl
    (by rw [hedges p]; simp)
    (fun a ha hap _ => hnot a hap (fun e => hqp (e ▸ ha)))
    (fun z hz => absurd hz id) h1
  rw [hx] at hr1
  have hc1 : s1.counter x = 1 := by rw [hr1.1]; rfl
  obtain ⟨s2, h2⟩ := deleteExpr_total hacyc fuel2 s1 q hev1.1 hf2
  have hev2 : Evolves s1 s2 := deleteExpr_evolves _ _ _ _ h2
  have hr2 := deleteExpr_single_edge hacyc (fun z => z = p) hev1.1
    (by rw [hedges q]; simp)
    (fun a _ haq hap => hnot a hap haq)
    (fun z hz => by rw [hz]; have := hev1.2.2.1 p; omega) h2
  rw [hc1] at hr2
  have hd1 := hev1.2.2.2.1 x
  have hd2 := hev2.2.2.2.1 x
  have hc2 : s2.counter x = 0 := by rw [hr2.1]; rfl
  refine ⟨s1, h1, hc1, by omega, by simpa using hr1.2, s2, h2, hc2, by omega, ?_⟩
  rw [hr2.2]
  simp at hr1 ⊢
  exact hr1.2

/-- C5 (witness): scenario C of the spec, with `x` = node 0 (`shared`),
`p` = node 2 (`c1`) and `q` = node 3 (`c2`). -/
theorem C5_shared_child_outlives_first_parent_witness :
    (Ranked scenarioTwoParents.kind id ∧ scenarioTwoParents.counter 0 = 2 ∧
      scenarioTwoParents.counter 2 = 0 ∧ ¬ Reach scenarioTwoParents.kind 2 3) ∧
    ∃ s1, deleteExpr 3 scenarioTwoParents 2 = some s1 ∧ s1.counter 0 = 1 ∧
      s1.decreases 0 = scenarioTwoParents.decreases 0 + 1 ∧
      s1.reclaims 0 = scenarioTwoParents.reclaims 0 ∧
      ∃ s2, deleteExpr 4 s1 3 = some s2 ∧ s2.counter 0 = 0 ∧
        s2.decreases 0 = scenarioTwoParents.decreases 0 + 2 ∧
        s2.reclaims 0 = scenarioTwoParents.reclaims 0 + 1 :=
  have hnr : ¬ Reach scenarioTwoParents.kind 2 3 := fun h => by
    have := h.rank_le scenarioTwoParents_ranked
    simp at this
  ⟨⟨scenarioTwoParents_ranked, by decide, by decide, hnr⟩,
    C5_shared_child_outlives_first_parent scenarioTwoParents id 0 2 3 3 4
      scenarioTwoParents_ranked scenarioTwoParents_edges (by decide) (by decide) hnr
      (by decide) (by decide)⟩

/-- C6: a composite node (`ComparisonNode`, `ArithmeticNode`, `CallNode`) is
built over existing children that each had counter at least 1, then deleted.
The delete returns (any nesting bound of at least 1), each node gets exactly
as many decrements as it got increments, every node that existed before the
construction has its old counter again, and no node other than the new one
is reclaimed. -/
theorem C6_construct_then_release_round_trip (s : Heap) (op : String) (lhs rhs : Nat)
    (operands : List Nat) (fuel : Nat)
    (hl : lhs < s.size ∧ 1 ≤ s.counter lhs) (hr : rhs < s.size ∧ 1 ≤ s.counter rhs)
    (hops : ∀ c ∈ operands, c < s.size ∧ 1 ≤ s.counter c) :
    RoundTrip s (ComparisonNode s op lhs rhs) [lhs, rhs] fuel ∧
    RoundTrip s (ArithmeticNode s op operands) operands fuel ∧
    RoundTrip s (CallNode s op operands) operands fuel := by
  refine ⟨?_, ?_, ?_⟩
  · refine roundTrip_of_children_referenced s (Payload.Comparison op lhs rhs) fuel ?_
    intro c hc
    simp only [Payload.children, List.mem_cons, List.mem_singleton, List.not_mem_nil,
      or_false] at hc
    rcases hc with rfl | rfl
    · exact hl
    · exact hr
  · exact roundTrip_of_children_referenced s (Payload.Arithmetic op operands) fuel hops
  · exact roundTrip_of_children_referenced s (Payload.Call op operands) fuel hops

/-- C6 (witness): over the heap of `Comparison("<", x, x)`, where `x` (node 0)
has counter 2, composites over `x` are built and deleted again. -/
theorem C6_construct_then_release_round_trip_witness :
    ((0 < scenarioSameChild.2.size ∧ 1 ≤ scenarioSameChild.2.counter 0) ∧
      ∀ c ∈ [0, 0], c < scenarioSameChild.2.size ∧ 1 ≤ scenarioSameChild.2.counter c) ∧
    RoundTrip scenarioSameChild.2 (ComparisonNode scenarioSameChild.2 "+" 0 0) [0, 0] 0 ∧
    RoundTrip scenarioSameChild.2 (ArithmeticNode scenarioSameChild.2 "+" [0, 0]) [0, 0] 0 ∧
    RoundTrip scenarioSameChild.2 (CallNode scenarioSameChild.2 "+" [0, 0]) [0, 0] 0 :=
  ⟨by decide, C6_construct_then_release_round_trip scenarioSameChild.2 "+" 0 0 [0, 0] 0
    (by decide) (by decide) (by decide)⟩

/-- C7: an `ArithmeticNode` is built over a list of existing leaf nodes that
all have counter 0 (repeats allowed).  After the construction each leaf's
counter is its number of occurrences in the list.  Deleting the node (any
nesting bound of at least 2) returns, makes one decrement per occurrence,
leaves each leaf at counter 0 and reclaims each leaf of the list exactly
once. -/
theorem C7_arithmetic_over_fresh_leaves (s : Heap) (op : String) (operands : List Nat)
    (fuel : Nat)
    (h : ∀ c ∈ operands, c < s.size ∧ (s.kind c).isLeaf = true ∧ s.counter c = 0) :
    (∀ c ∈ operands, (ArithmeticNode s op operands).2.counter c = (operands.count c : Int)) ∧
    ∃ t, deleteExpr (fuel + 2) (ArithmeticNode s op operands).2
        (ArithmeticNode s op operands).1 = some t ∧
      ∀ c ∈ operands, t.counter c = 0 ∧ t.decreases c = s.decreases c + operands.count c ∧
        t.reclaims c = s.reclaims c + 1 := by
  set s1 := (ArithmeticNode s op operands).2 with hs1
  have hp : (ArithmeticNode s op operands).1 = s.size := rfl
  have hs1' : s1 = incrementCounterList (alloc s (Payload.Arithmetic op operands)) operands := rfl
  have hkp : s1.kind s.size = Payload.Arithmetic op operands := by
    rw [hs1', incrementCounterList_kind]; simp
  have hkc : ∀ c ∈ operands, s1.kind c = s.kind c := by
    intro c hc
    rw [hs1', incrementCounterList_kind, alloc_kind_old s _ (by have := (h c hc).1; omega)]
  have hcnt : ∀ c ∈ operands, s1.counter c = (operands.count c : Int) := by
    intro c hc
    obtain ⟨h1, -, h3⟩ := h c hc
    rw [hs1', incrementCounterList_counter, alloc_counter_old s _ (by omega), h3]; simp
  refine ⟨hcnt, ?_⟩
  have hleaf : ∀ c ∈ operands, ∀ u : Heap, u.kind = s1.kind →
      ∃ u', deleteExpr (fuel + 1) u c = some u' := by
    intro c hc u hu
    exact ⟨_, deleteExpr_leaf fuel u c (by rw [hu, hkc c hc]; exact (h c hc).2.1)⟩
  obtain ⟨t, ht⟩ := deleteAllSubtrees_total (deleteExpr_evolves (fuel + 1)) operands hleaf s1 rfl
  have hev : Evolves s1 t := deleteAllSubtrees_evolves (deleteExpr_evolves (fuel + 1)) _ _ _ ht
  refine ⟨t.emit (Event.reclaim s.size), ?_, fun c hc => ?_⟩
  · rw [hp, deleteExpr_succ, hkp]
    show Option.map _ (deleteAllSubtrees (deleteExpr (fuel + 1)) s1 operands) = _
    rw [ht]; rfl
  · have hx : ∀ a, a ∈ operands → c ∉ (s1.kind a).children := by
      intro a ha
      rw [hkc a ha, Payload.children_of_isLeaf (h a ha).2.1]
      exact List.not_mem_nil c
    have hinv : FrameInv s1.kind (fun a => a ∈ operands) s1 := by
      refine ⟨rfl, fun a d ha hd => ?_⟩
      rw [hkc a ha, Payload.children_of_isLeaf (h a ha).2.1] at hd
      exact absurd hd (List.not_mem_nil d)
    have hfr := deleteAllSubtrees_frame (deleteExpr_frame hx (fuel + 1))
      (deleteExpr_evolves (fuel + 1)) operands s1 t hinv (fun d hd => Or.inl hd) ht
    have hpos : 0 < operands.count c := List.count_pos_iff.mpr hc
    have hcond : 0 < s1.counter c ∧ s1.counter c ≤ (operands.count c : Int) := by
      rw [hcnt c hc]; omega
    rw [hcnt c hc, if_pos (by rw [hcnt c hc] at hcond; exact hcond)] at hfr
    have hdec := hev.2.2.2.1 c
    rw [hfr.1, hcnt c hc] at hdec
    have hne : ¬ s.size = c := by have := (h c hc).1; omega
    have hd1 : s1.decreases c = s.decreases c := by simp [hs1']
    have hr1 : s1.reclaims c = s.reclaims c := by simp [hs1']
    refine ⟨by rw [emit_counter, hfr.1]; omega, ?_, ?_⟩
    · rw [emit_decreases, hd1.symm]
      simp
      omega
    · rw [emit_reclaims, hfr.2, hr1]
      simp [hne]

/-- C7 (witness): scenario B of the spec, `x = IntLiteral(5)` and
`Arithmetic("+", [x, x])`. -/
theorem C7_arithmetic_over_fresh_leaves_witness :
    (∀ c ∈ [0, 0], c < scenarioFreshLeaf.2.size ∧ (scenarioFreshLeaf.2.kind c).isLeaf = true ∧
      scenarioFreshLeaf.2.counter c = 0) ∧
    (∀ c ∈ [0, 0], (ArithmeticNode scenarioFreshLeaf.2 "+" [0, 0]).2.counter c =
      (([0, 0] : List Nat).count c : Int)) ∧
    ∃ t, deleteExpr 2 (ArithmeticNode scenarioFreshLeaf.2 "+" [0, 0]).2
        (ArithmeticNode scenarioFreshLeaf.2 "+" [0, 0]).1 = some t ∧
      ∀ c ∈ [0, 0], t.counter c = 0 ∧
        t.decreases c = scenarioFreshLeaf.2.decreases c + ([0, 0] : List Nat).count c ∧
        t.reclaims c = scenarioFreshLeaf.2.reclaims c + 1 :=
  ⟨by decide, C7_arithmetic_over_fresh_leaves scenarioFreshLeaf.2 "+" [0, 0] 0 (by decide)⟩

/-- C8: for two distinct existing leaves `a`, `b` with counter 0,
`ComparisonNode(op, a, b)` leaves both counters at 1; deleting the comparison
(with any nesting bound of at least 2) returns, brings both counters to 0,
reclaims `a` once and `b` once, and writes no `Negative counter`. -/
theorem C8_comparison_of_two_leaves (s : Heap) (op : String) (a b : Nat) (fuel : Nat)
    (ha : a < s.size) (hb : b < s.size) (hab : a ≠ b)
    (hla : (s.kind a).isLeaf = true) (hlb : (s.kind b).isLeaf = true)
    (hca : s.counter a = 0) (hcb : s.counter b = 0) :
    (ComparisonNode s op a b).2.counter a = 1 ∧ (ComparisonNode s op a b).2.counter b = 1 ∧
    ∃ s', deleteExpr (fuel + 2) (ComparisonNode s op a b).2 (ComparisonNode s op a b).1 = some s' ∧
      s'.counter a = 0 ∧ s'.counter b = 0 ∧
      s'.reclaims a = s.reclaims a + 1 ∧ s'.reclaims b = s.reclaims b + 1 ∧
      s'.negatives = s.negatives ∧
      s'.trace = s.trace ++ [Event.increase a, Event.increase b, Event.decrease a,
        Event.decrease b, Event.zeroTest a, Event.reclaim a, Event.zeroTest b, Event.reclaim b,
        Event.reclaim s.size] := by
  have hna : a ≠ s.size := by omega
  have hnb : b ≠ s.size := by omega
  have hba : b ≠ a := fun e => hab e.symm
  set s1 := (ComparisonNode s op a b).2 with hs1
  have h1 : (ComparisonNode s op a b).1 = s.size := rfl
  have hk1 : s1.kind = (alloc s (Payload.Comparison op a b)).kind := rfl
  have hkp : s1.kind s.size = Payload.Comparison op a b := by rw [hk1]; simp
  have hka : (s1.kind a).isLeaf = true := by rw [hk1, alloc_kind_old s _ hna]; exact hla
  have hkb : (s1.kind b).isLeaf = true := by rw [hk1, alloc_kind_old s _ hnb]; exact hlb
  have hc1a : s1.counter a = 1 := by
    simp only [hs1, ComparisonNode]
    rw [increaseCounter_counter_other _ _ _ hab, increaseCounter_counter_same,
      alloc_counter_old s _ hna, hca]; rfl
  have hc1b : s1.counter b = 1 := by
    simp only [hs1, ComparisonNode]
    rw [increaseCounter_counter_same, increaseCounter_counter_other _ _ _ hba,
      alloc_counter_old s _ hnb, hcb]; rfl
  have ht1 : s1.trace = s.trace ++ [Event.increase a, Event.increase b] := by
    simp [hs1, ComparisonNode]
  refine ⟨hc1a, hc1b, ?_⟩
  rw [h1, deleteExpr_succ, hkp]
  simp only [destructorBody]
  rw [ComparisonNode.destructor_eq]
  set s2 := decreaseCounter (decreaseCounter s1 a) b with hs2
  have hc2a : s2.counter a = 0 := by
    rw [hs2, decreaseCounter_counter_other _ _ _ hab, decreaseCounter_counter_same, hc1a]; rfl
  have hc2b : s2.counter b = 0 := by
    rw [hs2, decreaseCounter_counter_same, decreaseCounter_counter_other _ _ _ hba, hc1b]; rfl
  rw [testAndDelete_of_zero _ _ _ hc2a, deleteExpr_leaf fuel _ a (by simpa [hs2] using hka)]
  simp only [Option.some_bind]
  rw [testAndDelete_of_zero _ _ _ (by simpa using hc2b),
    deleteExpr_leaf fuel _ b (by simpa [hs2] using hkb)]
  refine ⟨_, rfl, ?_, ?_, ?_, ?_, ?_, ?_⟩
  · simpa using hc2a
  · simpa using hc2b
  · simp [hs2, hs1, ComparisonNode, hab, hna.symm, hba]
  · simp [hs2, hs1, ComparisonNode, hab, hnb.symm, hba]
  · simp [hs2, hs1, ComparisonNode]
  · simp [hs2, ht1]

/-- C8 (witness): scenario A of the spec,
`Comparison("<", IntLiteral(1), IntLiteral(2))`. -/
theorem C8_comparison_of_two_leaves_witness :
    (0 < scenarioTwoLeaves.size ∧ 1 < scenarioTwoLeaves.size ∧
      (scenarioTwoLeaves.kind 0).isLeaf = true ∧ (scenarioTwoLeaves.kind 1).isLeaf = true ∧
      scenarioTwoLeaves.counter 0 = 0 ∧ scenarioTwoLeaves.counter 1 = 0) ∧
    (ComparisonNode scenarioTwoLeaves "<" 0 1).2.counter 0 = 1 ∧
    (ComparisonNode scenarioTwoLeaves "<" 0 1).2.counter 1 = 1 ∧
    ∃ s', deleteExpr 2 (ComparisonNode scenarioTwoLeaves "<" 0 1).2
        (ComparisonNode scenarioTwoLeaves "<" 0 1).1 = some s' ∧
      s'.counter 0 = 0 ∧ s'.counter 1 = 0 ∧
      s'.reclaims 0 = scenarioTwoLeaves.reclaims 0 + 1 ∧
      s'.reclaims 1 = scenarioTwoLeaves.reclaims 1 + 1 ∧
      s'.negatives = scenarioTwoLeaves.negatives ∧
      s'.trace = scenarioTwoLeaves.trace ++ [Event.increase 0, Event.increase 1,
        Event.decrease 0, Event.decrease 1, Event.zeroTest 0, Event.reclaim 0,
        Event.zeroTest 1, Event.reclaim 1, Event.reclaim scenarioTwoLeaves.size] :=
  ⟨by decide, C8_comparison_of_two_leaves scenarioTwoLeaves "<" 0 1 0 (by decide) (by decide)
    (by decide) (by decide) (by decide) (by decide) (by decide)⟩

/-- C9 (counterexample): on a fresh node (counter 0) `decreaseCounter` stores
-1 and writes nothing: the only event recorded is the decrement itself. -/
theorem C9_decrease_silent_on_zero :
    scenarioFreshLeaf.2.counter scenarioFreshLeaf.1 = 0 ∧
    (decreaseCounter scenarioFreshLeaf.2 scenarioFreshLeaf.1).counter scenarioFreshLeaf.1 = -1 ∧
    (decreaseCounter scenarioFreshLeaf.2 scenarioFreshLeaf.1).trace = [Event.decrease 0] ∧
    (decreaseCounter scenarioFreshLeaf.2 scenarioFreshLeaf.1).negatives = 0 := by
  decide

/-- C9 (amended): for a node whose counter is at most zero, `decreaseCounter`
stores the counter minus one (a negative value), changes no other counter and
writes no diagnostic; the next `zeroCounter` on that node writes
`Negative counter` once and answers false. -/
theorem C9_negative_reported_by_zeroCounter (s : Heap) (a : Nat) (h : s.counter a ≤ 0) :
    (decreaseCounter s a).counter a = s.counter a - 1 ∧
    (decreaseCounter s a).counter a < 0 ∧
    (∀ b, b ≠ a → (decreaseCounter s a).counter b = s.counter b) ∧
    (decreaseCounter s a).trace = s.trace ++ [Event.decrease a] ∧
    (decreaseCounter s a).negatives = s.negatives ∧
    (zeroCounter (decreaseCounter s a) a).1 = false ∧
    (zeroCounter (decreaseCounter s a) a).2.negatives = s.negatives + 1 := by
  have hlt : (decreaseCounter s a).counter a < 0 := by
    rw [decreaseCounter_counter_same]; omega
  have hne : ¬ (decreaseCounter s a).counter a = 0 := by omega
  refine ⟨by simp, hlt, fun b hb => decreaseCounter_counter_other s a b hb, rfl, by simp, ?_, ?_⟩
  · rw [zeroCounter_fst]; exact decide_eq_false hne
  · rw [zeroCounter_negatives, if_pos hlt, decreaseCounter_negatives]

/-- C9 (witness): a fresh `IntLiteral(5)` has counter 0; decrementing it and
then testing it writes one `Negative counter`. -/
theorem C9_negative_reported_by_zeroCounter_witness :
    scenarioFreshLeaf.2.counter 0 ≤ 0 ∧
    (zeroCounter (decreaseCounter scenarioFreshLeaf.2 0) 0).2.negatives =
      scenarioFreshLeaf.2.negatives + 1 :=
  ⟨by decide, (C9_negative_reported_by_zeroCounter scenarioFreshLeaf.2 0 (by decide)).2.2.2.2.2.2⟩

/-- C10: `zeroCounter` answers true exactly when the counter is zero (hence
false for every negative counter), writes `Negative counter` exactly when the
counter is negative, and changes neither a counter nor the graph. -/
theorem C10_zeroCounter_contract (s : Heap) (a : Nat) :
    ((zeroCounter s a).1 = true ↔ s.counter a = 0) ∧
    (s.counter a < 0 → (zeroCounter s a).1 = false) ∧
    (zeroCounter s a).2.trace =
      s.trace ++ (Event.zeroTest a :: if s.counter a < 0 then [Event.negative a] else []) ∧
    ((zeroCounter s a).2.negatives = s.negatives + 1 ↔ s.counter a < 0) ∧
    (¬ s.counter a < 0 → (zeroCounter s a).2.negatives = s.negatives) ∧
    (zeroCounter s a).2.counter = s.counter ∧
    (zeroCounter s a).2.kind = s.kind ∧ (zeroCounter s a).2.size = s.size := by
  refine ⟨by rw [zeroCounter_fst]; simp, ?_, zeroCounter_trace s a, ?_, ?_, by simp, by simp,
    by simp⟩
  · intro h
    have : ¬ s.counter a = 0 := by omega
    rw [zeroCounter_fst]; simp [this]
  · rw [zeroCounter_negatives]
    by_cases h : s.counter a < 0 <;> simp [h]
  · intro h
    rw [zeroCounter_negatives]; simp [h]

/-- C12: for pairwise distinct existing nodes with counter 0, the `CallNode`
built over them stores the function name and exactly the given argument
sequence in the given order, and every argument has counter 1 after the
construction; the construction records no decrement. -/
theorem C12_call_keeps_arguments_in_order (s : Heap) (funcName : String) (arguments : List Nat)
    (hnodup : arguments.Nodup)
    (h : ∀ c ∈ arguments, c < s.size ∧ s.counter c = 0) :
    (CallNode s funcName arguments).2.kind (CallNode s funcName arguments).1 =
      Payload.Call funcName arguments ∧
    ((CallNode s funcName arguments).2.kind (CallNode s funcName arguments).1).children =
      arguments ∧
    (∀ c ∈ arguments, (CallNode s funcName arguments).2.counter c = 1) ∧
    (CallNode s funcName arguments).2.trace = s.trace ++ arguments.map Event.increase := by
  have hk : (CallNode s funcName arguments).2.kind (CallNode s funcName arguments).1 =
      Payload.Call funcName arguments := by
    simp [CallNode]
  refine ⟨hk, by rw [hk]; rfl, fun c hc => ?_, ?_⟩
  · obtain ⟨h1, h2⟩ := h c hc
    simp only [CallNode]
    rw [incrementCounterList_counter, alloc_counter_old s _ (by omega), h2,
      List.count_eq_one_of_mem hnodup hc]
    rfl
  · simp only [CallNode]
    rw [incrementCounterList_trace, alloc_trace]

/-- C12 (witness): scenario D of the spec,
`Call("f", [IntLiteral(1), VarUse("x"), IntLiteral(2)])`. -/
theorem C12_call_keeps_arguments_in_order_witness :
    (([0, 1, 2] : List Nat).Nodup ∧
      ∀ c ∈ [0, 1, 2], c < scenarioCallArguments.size ∧ scenarioCallArguments.counter c = 0) ∧
    (CallNode scenarioCallArguments "f" [0, 1, 2]).2.kind
      (CallNode scenarioCallArguments "f" [0, 1, 2]).1 = Payload.Call "f" [0, 1, 2] ∧
    ((CallNode scenarioCallArguments "f" [0, 1, 2]).2.kind
      (CallNode scenarioCallArguments "f" [0, 1, 2]).1).children = [0, 1, 2] ∧
    (∀ c ∈ [0, 1, 2], (CallNode scenarioCallArguments "f" [0, 1, 2]).2.counter c = 1) ∧
    (CallNode scenarioCallArguments "f" [0, 1, 2]).2.trace =
      scenarioCallArguments.trace ++ ([0, 1, 2] : List Nat).map Event.increase :=
  ⟨by decide, C12_call_keeps_arguments_in_order scenarioCallArguments "f" [0, 1, 2] (by decide)
    (by decide)⟩

/-- C13: a constructor call changes, among the nodes that existed before, only
the counters of the nodes passed as children.  The variant data of every
existing node is unchanged, the counter of an existing node that is not among
the children is unchanged, and the two leaf constructors change neither the
data nor the counter of any existing node and perform no counter operation. -/
theorem C13_construction_touches_only_child_counters (s : Heap) (op name : String)
    (value : Int) (lhs rhs : Nat) (operands : List Nat) (n : Nat) (hn : n < s.size) :
    ((IntLiteralNode s value).2.kind n = s.kind n ∧
      (IntLiteralNode s value).2.counter n = s.counter n ∧
      (IntLiteralNode s value).2.trace = s.trace) ∧
    ((VarUseNode s name).2.kind n = s.kind n ∧
      (VarUseNode s name).2.counter n = s.counter n ∧
      (VarUseNode s name).2.trace = s.trace) ∧
    ((ComparisonNode s op lhs rhs).2.kind n = s.kind n ∧
      (n ≠ lhs → n ≠ rhs → (ComparisonNode s op lhs rhs).2.counter n = s.counter n)) ∧
    ((ArithmeticNode s op operands).2.kind n = s.kind n ∧
      (n ∉ operands → (ArithmeticNode s op operands).2.counter n = s.counter n)) ∧
    ((CallNode s name operands).2.kind n = s.kind n ∧
      (n ∉ operands → (CallNode s name operands).2.counter n = s.counter n)) := by
  have hne : n ≠ s.size := by omega
  refine ⟨⟨?_, ?_, rfl⟩, ⟨?_, ?_, rfl⟩, ⟨?_, ?_⟩, ⟨?_, ?_⟩, ⟨?_, ?_⟩⟩
  · exact alloc_kind_old s _ hne
  · exact alloc_counter_old s _ hne
  · exact alloc_kind_old s _ hne
  · exact alloc_counter_old s _ hne
  · simp only [ComparisonNode, increaseCounter_kind]
    exact alloc_kind_old s _ hne
  · intro h1 h2
    simp only [ComparisonNode]
    rw [increaseCounter_counter_other _ _ _ h2, increaseCounter_counter_other _ _ _ h1,
      alloc_counter_old s _ hne]
  · simp only [ArithmeticNode, incrementCounterList_kind]
    exact alloc_kind_old s _ hne
  · intro h1
    simp only [ArithmeticNode]
    rw [incrementCounterList_counter, alloc_counter_old s _ hne, List.count_eq_zero_of_not_mem h1]
    simp
  · simp only [CallNode, incrementCounterList_kind]
    exact alloc_kind_old s _ hne
  · intro h1
    simp only [CallNode]
    rw [incrementCounterList_counter, alloc_counter_old s _ hne, List.count_eq_zero_of_not_mem h1]
    simp

/-- C13 (witness): over the two fresh literals, node 1 is not passed as a
child and keeps data and counter under every constructor. -/
theorem C13_construction_touches_only_child_counters_witness :
    1 < scenarioTwoLeaves.size ∧
    ((ArithmeticNode scenarioTwoLeaves "+" [0, 0]).2.kind 1 = scenarioTwoLeaves.kind 1 ∧
      (1 ∉ [0, 0] →
        (ArithmeticNode scenarioTwoLeaves "+" [0, 0]).2.counter 1 = scenarioTwoLeaves.counter 1)) :=
  ⟨by decide, (C13_construction_touches_only_child_counters scenarioTwoLeaves "+" "f" 3 0 0
    [0, 0] 1 (by decide)).2.2.2.1⟩

/-- C14: the node returned by each of the five constructors has counter 0 when
the constructor returns, however many (existing) children it references. -/
theorem C14_new_node_has_counter_zero (s : Heap) (op name : String) (value : Int)
    (lhs rhs : Nat) (operands : List Nat)
    (hl : lhs < s.size) (hr : rhs < s.size) (hops : ∀ c ∈ operands, c < s.size) :
    (IntLiteralNode s value).2.counter (IntLiteralNode s value).1 = 0 ∧
    (VarUseNode s name).2.counter (VarUseNode s name).1 = 0 ∧
    (ComparisonNode s op lhs rhs).2.counter (ComparisonNode s op lhs rhs).1 = 0 ∧
    (ArithmeticNode s op operands).2.counter (ArithmeticNode s op operands).1 = 0 ∧
    (CallNode s name operands).2.counter (CallNode s name operands).1 = 0 := by
  have hnot : s.size ∉ operands := fun hmem => by have := hops _ hmem; omega
  refine ⟨by simp [IntLiteralNode], by simp [VarUseNode], ?_, ?_, ?_⟩
  · simp only [ComparisonNode]
    rw [increaseCounter_counter_other _ _ _ (by omega),
      increaseCounter_counter_other _ _ _ (by omega), alloc_counter_new]
  · simp only [ArithmeticNode]
    rw [incrementCounterList_counter, alloc_counter_new, List.count_eq_zero_of_not_mem hnot]
    simp
  · simp only [CallNode]
    rw [incrementCounterList_counter, alloc_counter_new, List.count_eq_zero_of_not_mem hnot]
    simp

/-- C14 (witness): composites over the two fresh literals, with a repeated
child. -/
theorem C14_new_node_has_counter_zero_witness :
    (0 < scenarioTwoLeaves.size ∧ 1 < scenarioTwoLeaves.size ∧
      ∀ c ∈ [0, 1, 0], c < scenarioTwoLeaves.size) ∧
    (ArithmeticNode scenarioTwoLeaves "+" [0, 1, 0]).2.counter
      (ArithmeticNode scenarioTwoLeaves "+" [0, 1, 0]).1 = 0 :=
  ⟨by decide, (C14_new_node_has_counter_zero scenarioTwoLeaves "+" "f" 3 0 1 [0, 1, 0]
    (by decide) (by decide) (by decide)).2.2.2.1⟩

/-- C15: when the child relation of the heap is well founded (as it is for
every finite acyclic graph), then for every assignment of counters (the
counters of `s` are arbitrary) the cascade started by `delete p` returns for
every node `p` once the allowed nesting depth is large enough, and so does
`deleteAllSubtrees` on every list; `incrementCounterList` returns on every
list after exactly one increment per element. -/
theorem C15_cascading_release_terminates (s : Heap)
    (hwf : WellFounded (flip (Child s.kind))) :
    (∀ p, ∃ n, ∀ fuel, n ≤ fuel → ∃ s', deleteExpr fuel s p = some s') ∧
    (∀ l : List Nat, ∃ n, ∀ fuel, n ≤ fuel →
      ∃ s', deleteAllSubtrees (deleteExpr fuel) s l = some s') ∧
    (∀ l : List Nat, (incrementCounterList s l).trace = s.trace ++ l.map Event.increase) := by
  refine ⟨fun p => ?_, fun l => ?_, fun l => incrementCounterList_trace l s⟩
  · obtain ⟨n, hn⟩ := deleteExpr_total_of_wf hwf p
    exact ⟨n, fun fuel hf => hn fuel hf s rfl⟩
  · obtain ⟨N, hN⟩ := exists_common_bound
      (P := fun n c => ∀ fuel, n ≤ fuel → ∀ t : Heap, t.kind = s.kind →
        ∃ t', deleteExpr fuel t c = some t')
      (fun c n m hnm h fuel hf => h fuel (le_trans hnm hf))
      l (fun c _ => deleteExpr_total_of_wf hwf c)
    exact ⟨N, fun fuel hf => deleteAllSubtrees_total (deleteExpr_evolves fuel) l
      (fun c hc t ht => hN c hc fuel hf t ht) s rfl⟩

/-- C15 (witness): scenario C of the spec; its child relation is well founded
because every child was allocated before its parent. -/
theorem C15_cascading_release_terminates_witness :
    WellFounded (flip (Child scenarioTwoParents.kind)) ∧
    (∀ p, ∃ n, ∀ fuel, n ≤ fuel → ∃ s', deleteExpr fuel scenarioTwoParents p = some s') :=
  ⟨scenarioTwoParents_ranked.wellFounded,
    (C15_cascading_release_terminates scenarioTwoParents scenarioTwoParents_ranked.wellFounded).1⟩

/-- C16: in an acyclic graph whose counters equal the in-degrees, where no
node outside the part reachable from `root` points into it, where every
`ComparisonNode` reachable from `root` has a right child that is neither its
left child nor reachable from its left child (vacuous for graphs made of
`IntLiteral`, `VarUse`, `Arithmetic` and `Call` nodes only) and where the
reachable nodes are live, `delete root` returns, reclaims every node reachable
from `root` exactly once, and makes no zero test on a node that has already
been reclaimed. -/
theorem C16_safe_release_reclaims_each_node_once (s : Heap) (rank : Nat → Nat)
    (root fuel : Nat)
    (hacyc : Ranked s.kind rank)
    (hfin : ∀ a, Reach s.kind root a → a < s.size)
    (hmatch : CountersMatch s)
    (hext : ∀ a c, c ∈ (s.kind a).children → Reach s.kind root c → Reach s.kind root a)
    (hsafe : SafeBelow s.kind root)
    (hfresh : ∀ x, Reach s.kind root x → s.reclaims x = 0)
    (hfuel : rank root < fuel) :
    ∃ s', deleteExpr fuel s root = some s' ∧
      (∀ x, Reach s.kind root x → s'.reclaims x = 1) ∧
      s'.staleTests = s.staleTests := by
  obtain ⟨s', h, hall, hst⟩ :=
    release_root_exactly_once s rank root fuel hacyc hfin hmatch hext hsafe hfresh hfuel
  exact ⟨s', h, fun x hx => (hall x hx).1, hst⟩

/-- C16 (witness): `x = VarUse("x"); a = Arithmetic("+", [x, x]);
r = Comparison("<", x, a)`; `delete r`. -/
theorem C16_safe_release_reclaims_each_node_once_witness :
    (Ranked scenarioSafeComparison.kind id ∧ CountersMatch scenarioSafeComparison ∧
      SafeBelow scenarioSafeComparison.kind 2) ∧
    ∃ s', deleteExpr 3 scenarioSafeComparison 2 = some s' ∧
      (∀ x, Reach scenarioSafeComparison.kind 2 x → s'.reclaims x = 1) ∧
      s'.staleTests = scenarioSafeComparison.staleTests :=
  ⟨⟨scenarioSafeComparison_ranked, by decide, scenarioSafeComparison_safe⟩,
    C16_safe_release_reclaims_each_node_once scenarioSafeComparison id 2 3
      scenarioSafeComparison_ranked
      (fun a ha => by
        have := ha.rank_le scenarioSafeComparison_ranked
        have hs : scenarioSafeComparison.size = 3 := by decide
        simp only [id] at this
        omega)
      (by decide) scenarioSafeComparison_closed scenarioSafeComparison_safe
      (fun x _ => scenarioSafeComparison_fresh x) (by decide)⟩

end AST
